import Mathlib

/-!
Verification of the rocks-tables storage layer.

This file shallowly embeds the core of the repository:
* the byte-level key/value codec configured in `src/binary_ser.rs` and
  `src/db.rs` (bincode `DefaultOptions` with big-endian: variable-length
  integer encoding with big-endian multi-byte payloads);
* the nonce derivation of `src/db.rs::prepare_nonce` and
  `src/encrypt.rs::prepare_nonce_aes_gcm`;
* the `Db` table over the external ordered store (modelled as an
  association list sorted by key, with injectable store failures, since
  the spec treats rocksdb as an external collaborator specified at its
  boundary);
* the three cache tables `MemTable`, `LruTable` and `SectionLruTable`.

Machine integers are modelled as `Nat`; a byte is a `Nat` (values are kept
below 256 where it matters).  Fallible Rust code returns `Except`; a Rust
panic is modelled as `Option.none`.
-/

set_option autoImplicit false

namespace RocksTables

/-! ## Byte-lexicographic comparison (rocksdb's memcmp key order) -/

/-- Strict byte-lexicographic order on byte strings, as rocksdb compares
keys: a proper prefix is smaller, otherwise the first differing byte
decides. -/
def bytesLt : List Nat → List Nat → Bool
  | _, [] => false
  | [], _ :: _ => true
  | a :: as, b :: bs =>
    if a < b then true
    else if a = b then bytesLt as bs
    else false

theorem bytesLt_irrefl (l : List Nat) : bytesLt l l = false := by
  induction l with
  | nil => rfl
  | cons a as ih => simp [bytesLt, ih]

theorem bytesLt_asymm (l₁ l₂ : List Nat) (h : bytesLt l₁ l₂ = true) :
    bytesLt l₂ l₁ = false := by
  induction l₁ generalizing l₂ with
  | nil =>
    cases l₂ with
    | nil => simp [bytesLt] at h
    | cons b bs => simp [bytesLt]
  | cons a as ih =>
    cases l₂ with
    | nil => simp [bytesLt] at h
    | cons b bs =>
      simp only [bytesLt] at h ⊢
      rcases Nat.lt_trichotomy a b with hab | hab | hab
      · simp [hab, Nat.lt_asymm hab, Nat.ne_of_gt hab]
      · subst hab
        simp only [lt_irrefl, if_false, if_true, if_neg, reduceIte] at h ⊢
        exact ih bs h
      · simp [hab, Nat.lt_asymm hab, Nat.ne_of_gt hab] at h

/-! ## The bincode codec configured by `bin_opts()`

`src/binary_ser.rs` and `src/db.rs` configure the codec as
`bincode::options().with_big_endian()`, i.e. bincode `DefaultOptions`:
variable-length integer encoding whose multi-byte payloads are big-endian.
The wire grammar below is bincode 1.3's documented `VarintEncoding`:

* an unsigned integer `< 251` is a single byte holding the value;
* `251 ≤ n < 2^16` is the marker byte 251 followed by 2 big-endian bytes;
* `2^16 ≤ n < 2^32` is the marker 252 followed by 4 big-endian bytes;
* `2^32 ≤ n < 2^64` is the marker 253 followed by 8 big-endian bytes;
* a signed integer is first zigzag-mapped to an unsigned one;
* a string or byte slice is its length (as an unsigned integer above)
  followed by its raw bytes.
-/

/-- `w`-byte big-endian representation of `n` (most significant byte
first); faithful for `n < 256 ^ w`. -/
def beBytes : Nat → Nat → List Nat
  | 0, _ => []
  | w + 1, n => (n / 256 ^ w) :: beBytes w (n % 256 ^ w)

/-- bincode `DefaultOptions` big-endian serialization of an unsigned
64-bit integer (`u16`/`u32`/`u64`/`usize` all use this scheme). -/
def serializeU64 (n : Nat) : List Nat :=
  if n < 251 then [n]
  else if n < 2 ^ 16 then 251 :: beBytes 2 n
  else if n < 2 ^ 32 then 252 :: beBytes 4 n
  else 253 :: beBytes 8 n

/-- bincode's zigzag map for signed integers: 0, -1, 1, -2, 2, … become
0, 1, 2, 3, 4, … -/
def zigzag (i : Int) : Nat :=
  if 0 ≤ i then 2 * i.toNat else 2 * (-i).toNat - 1

/-- bincode `DefaultOptions` big-endian serialization of a signed 64-bit
integer: zigzag, then the unsigned scheme. -/
def serializeI64 (i : Int) : List Nat :=
  serializeU64 (zigzag i)

/-- bincode `DefaultOptions` serialization of a string / raw byte slice:
varint length prefix followed by the raw bytes. -/
def serializeBytes (s : List Nat) : List Nat :=
  serializeU64 s.length ++ s

theorem beBytes_length (w n : Nat) : (beBytes w n).length = w := by
  induction w generalizing n with
  | zero => rfl
  | succ w ih => simp [beBytes, ih]

/-- Fixed-width big-endian bytes compare lexicographically exactly as the
numbers compare. -/
theorem bytesLt_beBytes (w a b : Nat) (hab : a < b) (hb : b < 256 ^ w) :
    bytesLt (beBytes w a) (beBytes w b) = true := by
  induction w generalizing a b with
  | zero =>
    exact absurd (Nat.lt_of_lt_of_le hab (Nat.le_of_lt_succ (by simpa using hb)))
      (Nat.not_lt_zero a)
  | succ w ih =>
    simp only [beBytes, bytesLt]
    have hdiv : a / 256 ^ w ≤ b / 256 ^ w :=
      Nat.div_le_div_right (Nat.le_of_lt hab)
    rcases Nat.lt_or_eq_of_le hdiv with hlt | heq
    · simp [hlt]
    · have hmod : a % 256 ^ w < b % 256 ^ w := by
        have ha' := Nat.div_add_mod a (256 ^ w)
        have hb' := Nat.div_add_mod b (256 ^ w)
        rw [heq] at ha'
        omega
      have hbmod : b % 256 ^ w < 256 ^ w :=
        Nat.mod_lt _ (Nat.pos_pow_of_pos w (by norm_num))
      simp [heq, ih _ _ hmod hbmod]

theorem bytesLt_cons_of_lt (a b : Nat) (as bs : List Nat) (h : a < b) :
    bytesLt (a :: as) (b :: bs) = true := by
  simp [bytesLt, h]

theorem bytesLt_cons_self (a : Nat) (as bs : List Nat) :
    bytesLt (a :: as) (a :: bs) = bytesLt as bs := by
  simp [bytesLt]

theorem serializeU64_class0 (n : Nat) (h : n < 251) : serializeU64 n = [n] := by
  simp [serializeU64, h]

theorem serializeU64_class1 (n : Nat) (h1 : ¬ n < 251) (h2 : n < 2 ^ 16) :
    serializeU64 n = 251 :: beBytes 2 n := by
  unfold serializeU64
  rw [if_neg h1, if_pos h2]

theorem serializeU64_class2 (n : Nat) (h1 : ¬ n < 2 ^ 16) (h2 : n < 2 ^ 32) :
    serializeU64 n = 252 :: beBytes 4 n := by
  have h0 : ¬ n < 251 := by omega
  unfold serializeU64
  rw [if_neg h0, if_neg h1, if_pos h2]

theorem serializeU64_class3 (n : Nat) (h1 : ¬ n < 2 ^ 32) :
    serializeU64 n = 253 :: beBytes 8 n := by
  have h0 : ¬ n < 251 := by omega
  have h2 : ¬ n < 2 ^ 16 := by omega
  unfold serializeU64
  rw [if_neg h0, if_neg h2, if_neg h1]

/-- The varint big-endian encoding of unsigned integers is strictly
order-preserving on the 64-bit range. -/
theorem bytesLt_serializeU64 (a b : Nat) (hab : a < b) (hb : b < 2 ^ 64) :
    bytesLt (serializeU64 a) (serializeU64 b) = true := by
  by_cases ha251 : a < 251
  · rw [serializeU64_class0 a ha251]
    by_cases hb251 : b < 251
    · rw [serializeU64_class0 b hb251]
      exact bytesLt_cons_of_lt _ _ _ _ hab
    · by_cases hb16 : b < 2 ^ 16
      · rw [serializeU64_class1 b hb251 hb16]
        exact bytesLt_cons_of_lt _ _ _ _ (by omega)
      · by_cases hb32 : b < 2 ^ 32
        · rw [serializeU64_class2 b hb16 hb32]
          exact bytesLt_cons_of_lt _ _ _ _ (by omega)
        · rw [serializeU64_class3 b hb32]
          exact bytesLt_cons_of_lt _ _ _ _ (by omega)
  · have hb251 : ¬ b < 251 := by omega
    by_cases ha16 : a < 2 ^ 16
    · rw [serializeU64_class1 a ha251 ha16]
      by_cases hb16 : b < 2 ^ 16
      · rw [serializeU64_class1 b hb251 hb16, bytesLt_cons_self]
        exact bytesLt_beBytes 2 a b hab (by norm_num at hb16 ⊢; omega)
      · by_cases hb32 : b < 2 ^ 32
        · rw [serializeU64_class2 b hb16 hb32]
          exact bytesLt_cons_of_lt _ _ _ _ (by omega)
        · rw [serializeU64_class3 b hb32]
          exact bytesLt_cons_of_lt _ _ _ _ (by omega)
    · have hb16 : ¬ b < 2 ^ 16 := by omega
      by_cases ha32 : a < 2 ^ 32
      · rw [serializeU64_class2 a ha16 ha32]
        by_cases hb32 : b < 2 ^ 32
        · rw [serializeU64_class2 b hb16 hb32, bytesLt_cons_self]
          exact bytesLt_beBytes 4 a b hab (by norm_num at hb32 ⊢; omega)
        · rw [serializeU64_class3 b hb32]
          exact bytesLt_cons_of_lt _ _ _ _ (by omega)
      · have hb32 : ¬ b < 2 ^ 32 := by omega
        rw [serializeU64_class3 a ha32, serializeU64_class3 b hb32, bytesLt_cons_self]
        exact bytesLt_beBytes 8 a b hab (by norm_num at hb ⊢; omega)

theorem serializeU64_order_iff (a b : Nat) (ha : a < 2 ^ 64) (hb : b < 2 ^ 64) :
    a < b ↔ bytesLt (serializeU64 a) (serializeU64 b) = true := by
  constructor
  · exact fun h => bytesLt_serializeU64 a b h hb
  · intro h
    rcases Nat.lt_trichotomy a b with hlt | heq | hgt
    · exact hlt
    · subst heq
      rw [bytesLt_irrefl] at h
      exact absurd h (by simp)
    · have := bytesLt_asymm _ _ (bytesLt_serializeU64 b a hgt ha)
      rw [this] at h
      exact absurd h (by simp)

/-! ## Nonce derivation

`src/db.rs::prepare_nonce` and `src/encrypt.rs::prepare_nonce_aes_gcm`
derive a 12-byte AES-GCM nonce from the serialized key bytes.  Rust's
`<[u8]>::copy_from_slice` panics when source and destination lengths
differ; a panic is modelled as `Option.none`. -/

/-- Model of Rust `dst.copy_from_slice(src)`: returns the copied bytes, or
`none` for the length-mismatch panic. -/
def copyFromSlice (dst src : List Nat) : Option (List Nat) :=
  if src.length = dst.length then some src else none

/-- `src/db.rs::prepare_nonce`: take the first 12 bytes of the key when it
is at least 12 bytes long; otherwise zero the 12-byte fallback buffer and
run `fallback.copy_from_slice(&key)` on the whole buffer. -/
def prepareNonce (key : List Nat) : Option (List Nat) :=
  if 12 ≤ key.length then
    some (key.take 12)
  else
    copyFromSlice (List.replicate 12 0) key

/-- `src/encrypt.rs::prepare_nonce_aes_gcm`: take the first 12 bytes of
the key when it is at least 12 bytes long; otherwise copy the key into the
first `key.len()` bytes of the zeroed fallback buffer
(`fallback[0..key.len()].copy_from_slice(&key)`), leaving the zero tail. -/
def prepareNonceAesGcm (key : List Nat) : List Nat :=
  if 12 ≤ key.length then
    key.take 12
  else
    key ++ List.replicate (12 - key.length) 0

/-- Modelled from the spec (§3): the specified nonce derivation — "the
first 12 bytes if the key is ≥12 bytes, otherwise the key bytes followed
by zero padding to 12 bytes". -/
def nonceSpec (key : List Nat) : List Nat :=
  if 12 ≤ key.length then key.take 12
  else key ++ List.replicate (12 - key.length) 0

theorem prepareNonceAesGcm_eq_spec (key : List Nat) :
    prepareNonceAesGcm key = nonceSpec key := rfl

theorem prepareNonceAesGcm_length (key : List Nat) :
    (prepareNonceAesGcm key).length = 12 := by
  unfold prepareNonceAesGcm
  split
  · rename_i h
    simp [List.length_take]
    omega
  · rename_i h
    simp
    omega

theorem prepareNonce_short_none (key : List Nat) (h : key.length < 12) :
    prepareNonce key = none := by
  unfold prepareNonce copyFromSlice
  rw [if_neg (by omega)]
  rw [if_neg (by simp; omega)]

theorem prepareNonce_long (key : List Nat) (h : 12 ≤ key.length) :
    prepareNonce key = some (key.take 12) := by
  unfold prepareNonce
  rw [if_pos h]

/-! ## Association maps (model of `std::collections::HashMap`)

The caches use `HashMap` with the following operations.  The model is an
association list; `mapInsert` replaces in place or appends, `mapErase`
removes the (single, under `Nodup` keys) binding.  The map constructed by
`HashMap::with_capacity_and_hasher(cap, ..)` is modelled as reporting
exactly the requested `cap` from `.capacity()`, the boundary behaviour the
code relies on in `ensure_capacity` (`map.capacity() == map.len()`). -/

variable {K V A B : Type}

def mapLookup [DecidableEq K] : List (K × A) → K → Option A
  | [], _ => none
  | (k', a) :: t, k => if k = k' then some a else mapLookup t k

def mapInsert [DecidableEq K] : List (K × A) → K → A → List (K × A)
  | [], k, a => [(k, a)]
  | (k', a') :: t, k, a =>
    if k = k' then (k, a) :: t else (k', a') :: mapInsert t k a

def mapErase [DecidableEq K] : List (K × A) → K → List (K × A)
  | [], _ => []
  | (k', a') :: t, k => if k = k' then t else (k', a') :: mapErase t k

theorem mapLookup_insert_self [DecidableEq K] (m : List (K × A)) (k : K) (a : A) :
    mapLookup (mapInsert m k a) k = some a := by
  induction m with
  | nil => simp [mapInsert, mapLookup]
  | cons p t ih =>
    by_cases h : k = p.1
    · simp [mapInsert, mapLookup, h]
    · simp [mapInsert, mapLookup, h, ih]

theorem mapLookup_insert_other [DecidableEq K] (m : List (K × A)) (k k' : K) (a : A)
    (h : k' ≠ k) : mapLookup (mapInsert m k a) k' = mapLookup m k' := by
  induction m with
  | nil => simp [mapInsert, mapLookup, h]
  | cons p t ih =>
    by_cases hk : k = p.1
    · subst hk
      simp [mapInsert, mapLookup, h]
    · by_cases hk' : k' = p.1
      · simp [mapInsert, mapLookup, hk, hk']
      · simp [mapInsert, mapLookup, hk, hk', ih]

theorem mapLookup_none_of_not_mem_keys [DecidableEq K] (m : List (K × A)) (k : K)
    (h : k ∉ m.map Prod.fst) : mapLookup m k = none := by
  induction m with
  | nil => rfl
  | cons p t ih =>
    simp only [List.map_cons, List.mem_cons, not_or] at h
    simp [mapLookup, h.1, ih h.2]

theorem mapLookup_erase_self [DecidableEq K] (m : List (K × A)) (k : K)
    (hnd : (m.map Prod.fst).Nodup) : mapLookup (mapErase m k) k = none := by
  induction m with
  | nil => simp [mapErase, mapLookup]
  | cons p t ih =>
    simp only [List.map_cons, List.nodup_cons] at hnd
    by_cases h : k = p.1
    · subst h
      simp only [mapErase, if_pos rfl]
      exact mapLookup_none_of_not_mem_keys t p.1 hnd.1
    · simp only [mapErase, if_neg h, mapLookup, if_neg h]
      exact ih hnd.2

theorem mapErase_not_mem [DecidableEq K] (m : List (K × A)) (k : K)
    (h : mapLookup m k = none) : mapErase m k = m := by
  induction m with
  | nil => rfl
  | cons p t ih =>
    simp only [mapLookup] at h
    by_cases hk : k = p.1
    · rw [if_pos hk] at h
      exact absurd h (by simp)
    · rw [if_neg hk] at h
      simp [mapErase, hk, ih h]

theorem mapInsert_length_of_lookup_none [DecidableEq K] (m : List (K × A)) (k : K) (a : A)
    (h : mapLookup m k = none) : (mapInsert m k a).length = m.length + 1 := by
  induction m with
  | nil => rfl
  | cons p t ih =>
    simp only [mapLookup] at h
    by_cases hk : k = p.1
    · rw [if_pos hk] at h
      exact absurd h (by simp)
    · rw [if_neg hk] at h
      simp [mapInsert, hk, ih h]

theorem mapInsert_length_of_lookup_some [DecidableEq K] (m : List (K × A)) (k : K) (a b : A)
    (h : mapLookup m k = some b) : (mapInsert m k a).length = m.length := by
  induction m with
  | nil => simp [mapLookup] at h
  | cons p t ih =>
    simp only [mapLookup] at h
    by_cases hk : k = p.1
    · simp [mapInsert, hk]
    · rw [if_neg hk] at h
      simp [mapInsert, hk, ih h]

theorem mapErase_length_le [DecidableEq K] (m : List (K × A)) (k : K) :
    (mapErase m k).length ≤ m.length := by
  induction m with
  | nil => simp [mapErase]
  | cons p t ih =>
    by_cases hk : k = p.1
    · simp [mapErase, hk]
    · simp only [mapErase, if_neg hk, List.length_cons]
      omega

theorem mapErase_length_of_lookup_some [DecidableEq K] (m : List (K × A)) (k : K) (a : A)
    (h : mapLookup m k = some a) : (mapErase m k).length + 1 = m.length := by
  induction m with
  | nil => simp [mapLookup] at h
  | cons p t ih =>
    simp only [mapLookup] at h
    by_cases hk : k = p.1
    · simp [mapErase, hk]
    · rw [if_neg hk] at h
      simp only [mapErase, if_neg hk, List.length_cons]
      rw [← ih h]

theorem not_mem_keys_of_mapLookup_none [DecidableEq K] (m : List (K × A)) (k : K)
    (h : mapLookup m k = none) : k ∉ m.map Prod.fst := by
  induction m with
  | nil => simp
  | cons p t ih =>
    simp only [mapLookup] at h
    by_cases hk : k = p.1
    · rw [if_pos hk] at h
      exact absurd h (by simp)
    · rw [if_neg hk] at h
      simp only [List.map_cons, List.mem_cons, not_or]
      exact ⟨hk, ih h⟩

theorem mapInsert_keys_of_lookup_none [DecidableEq K] (m : List (K × A)) (k : K) (a : A)
    (h : mapLookup m k = none) :
    (mapInsert m k a).map Prod.fst = m.map Prod.fst ++ [k] := by
  induction m with
  | nil => rfl
  | cons p t ih =>
    simp only [mapLookup] at h
    by_cases hk : k = p.1
    · rw [if_pos hk] at h
      exact absurd h (by simp)
    · rw [if_neg hk] at h
      simp [mapInsert, hk, ih h]

theorem mapInsert_keys_of_lookup_some [DecidableEq K] (m : List (K × A)) (k : K) (a b : A)
    (h : mapLookup m k = some b) :
    (mapInsert m k a).map Prod.fst = m.map Prod.fst := by
  induction m with
  | nil => simp [mapLookup] at h
  | cons p t ih =>
    simp only [mapLookup] at h
    by_cases hk : k = p.1
    · simp [mapInsert, hk]
    · rw [if_neg hk] at h
      simp [mapInsert, hk, ih h]

theorem mapInsert_keys_nodup [DecidableEq K] (m : List (K × A)) (k : K) (a : A)
    (h : (m.map Prod.fst).Nodup) : ((mapInsert m k a).map Prod.fst).Nodup := by
  cases hl : mapLookup m k with
  | none =>
    rw [mapInsert_keys_of_lookup_none m k a hl]
    rw [List.nodup_append]
    exact ⟨h, List.nodup_singleton k,
      fun x hx hx' => by
        rw [List.mem_singleton.mp hx'] at hx
        exact not_mem_keys_of_mapLookup_none m k hl hx⟩
  | some b =>
    rw [mapInsert_keys_of_lookup_some m k a b hl]
    exact h

theorem mapErase_keys_sublist [DecidableEq K] (m : List (K × A)) (k : K) :
    ((mapErase m k).map Prod.fst).Sublist (m.map Prod.fst) := by
  induction m with
  | nil => simp [mapErase]
  | cons p t ih =>
    by_cases hk : k = p.1
    · simp only [mapErase, if_pos hk, List.map_cons]
      exact (List.sublist_cons_self p.1 (t.map Prod.fst)).trans (List.Sublist.refl _)
    · simp only [mapErase, if_neg hk, List.map_cons]
      exact ih.cons₂ p.1

theorem mapErase_keys_nodup [DecidableEq K] (m : List (K × A)) (k : K)
    (h : (m.map Prod.fst).Nodup) : ((mapErase m k).map Prod.fst).Nodup :=
  (mapErase_keys_sublist m k).nodup h

/-! ## The `Db` table (`src/db.rs`)

The external ordered byte-store (rocksdb) is specified only at its
boundary: an ordered map from keys to values whose forward iteration
yields entries in ascending key order, and whose operations can fail with
a `StoreError`.  The model keeps the store as an association list sorted
strictly ascending by key.  Keys are compared by the domain order, which
stands for the byte-lexicographic order of their encodings (the codec
layer above relates the two).  Store failures are injected through the
`putErr`/`getErr`/`delErr` fields, which stand for the underlying store
failing the corresponding call; errors are numbered so that distinct
failure sites are distinguishable. -/

/-- Sorted insertion into the store: rocksdb `put` semantics (overwrite on
equal key, keep ascending order). -/
def storePut [LinearOrder K] : List (K × V) → K → V → List (K × V)
  | [], k, v => [(k, v)]
  | (k', v') :: t, k, v =>
    if k < k' then (k, v) :: (k', v') :: t
    else if k = k' then (k, v) :: t
    else (k', v') :: storePut t k v

/-- rocksdb `delete` semantics: the key is absent afterwards. -/
def storeDelete [DecidableEq K] (s : List (K × V)) (k : K) : List (K × V) :=
  s.filter (fun p => decide (¬ p.1 = k))

/-- The store's entries are strictly ascending by key (the ordered-store
boundary invariant). -/
def storeSorted [LinearOrder K] (s : List (K × V)) : Prop :=
  s.Pairwise (fun a b => a.1 < b.1)

theorem mapLookup_storePut_self [LinearOrder K] (s : List (K × V)) (k : K) (v : V) :
    mapLookup (storePut s k v) k = some v := by
  induction s with
  | nil => simp [storePut, mapLookup]
  | cons p t ih =>
    rcases p with ⟨k', v'⟩
    by_cases h1 : k < k'
    · simp [storePut, h1, mapLookup]
    · by_cases h2 : k = k'
      · simp [storePut, h1, h2, mapLookup]
      · simp [storePut, h1, h2, mapLookup, ih]

theorem mapLookup_storePut_other [LinearOrder K] (s : List (K × V)) (k k' : K) (v : V)
    (h : k' ≠ k) : mapLookup (storePut s k v) k' = mapLookup s k' := by
  induction s with
  | nil => simp [storePut, mapLookup, h]
  | cons p t ih =>
    rcases p with ⟨k₀, v₀⟩
    by_cases h1 : k < k₀
    · simp [storePut, h1, mapLookup, h]
    · by_cases h2 : k = k₀
      · subst h2
        simp [storePut, h1, mapLookup, h]
      · by_cases h3 : k' = k₀
        · simp [storePut, h1, h2, mapLookup, h3]
        · simp [storePut, h1, h2, mapLookup, h3, ih]

theorem mapLookup_storeDelete_self [DecidableEq K] (s : List (K × V)) (k : K) :
    mapLookup (storeDelete s k) k = none := by
  induction s with
  | nil => rfl
  | cons p t ih =>
    simp only [storeDelete, List.filter_cons] at ih ⊢
    by_cases h : p.1 = k
    · rw [if_neg (by simp [h])]
      exact ih
    · rw [if_pos (by simp [h])]
      simp only [mapLookup]
      rw [if_neg (fun hc => h hc.symm)]
      exact ih

theorem mapLookup_storeDelete_other [DecidableEq K] (s : List (K × V)) (k k' : K)
    (h : k' ≠ k) : mapLookup (storeDelete s k) k' = mapLookup s k' := by
  induction s with
  | nil => rfl
  | cons p t ih =>
    simp only [storeDelete, List.filter_cons] at ih ⊢
    by_cases hp : p.1 = k
    · rw [if_neg (by simp [hp])]
      simp only [mapLookup]
      rw [if_neg (fun hc => h (hc.trans hp))]
      exact ih
    · rw [if_pos (by simp [hp])]
      simp only [mapLookup]
      by_cases hk' : k' = p.1
      · rw [if_pos hk', if_pos hk']
      · rw [if_neg hk', if_neg hk']
        exact ih

theorem storePut_mem [LinearOrder K] (s : List (K × V)) (k : K) (v : V) :
    ∀ p ∈ storePut s k v, p.1 = k ∨ p ∈ s := by
  induction s with
  | nil =>
    intro p hp
    simp only [storePut, List.mem_singleton] at hp
    left
    rw [hp]
  | cons q t ih =>
    intro p hp
    rcases q with ⟨k', v'⟩
    by_cases h1 : k < k'
    · simp only [storePut, if_pos h1, List.mem_cons] at hp
      rcases hp with h | h | h
      · left; rw [h]
      · right; rw [h]; exact List.mem_cons_self _ _
      · right; exact List.mem_cons_of_mem _ h
    · by_cases h2 : k = k'
      · simp only [storePut, if_neg h1, if_pos h2, List.mem_cons] at hp
        rcases hp with h | h
        · left; rw [h]
        · right; exact List.mem_cons_of_mem _ h
      · simp only [storePut, if_neg h1, if_neg h2, List.mem_cons] at hp
        rcases hp with h | h
        · right; rw [h]; exact List.mem_cons_self _ _
        · rcases ih p h with h' | h'
          · left; exact h'
          · right; exact List.mem_cons_of_mem _ h'

theorem storePut_sorted [LinearOrder K] (s : List (K × V)) (k : K) (v : V)
    (hs : storeSorted s) : storeSorted (storePut s k v) := by
  induction s with
  | nil => simp [storePut, storeSorted]
  | cons q t ih =>
    rcases q with ⟨k', v'⟩
    rw [storeSorted, List.pairwise_cons] at hs
    by_cases h1 : k < k'
    · rw [storeSorted, storePut]
      rw [if_pos h1]
      rw [List.pairwise_cons]
      refine ⟨?_, ?_⟩
      · intro b hb
        rcases List.mem_cons.mp hb with h | h
        · rw [h]; exact h1
        · exact lt_trans h1 (hs.1 b h)
      · rw [List.pairwise_cons]
        exact hs
    · by_cases h2 : k = k'
      · rw [storeSorted, storePut, if_neg h1, if_pos h2, List.pairwise_cons]
        refine ⟨?_, hs.2⟩
        intro b hb
        rw [h2]
        exact hs.1 b hb
      · rw [storeSorted, storePut, if_neg h1, if_neg h2, List.pairwise_cons]
        refine ⟨?_, ih hs.2⟩
        intro b hb
        rcases storePut_mem t k v b hb with h | h
        · rw [h]
          rcases lt_trichotomy k k' with hc | hc | hc
          · exact absurd hc h1
          · exact absurd hc h2
          · exact hc
        · exact hs.1 b h

theorem storeDelete_sorted [LinearOrder K] (s : List (K × V)) (k : K)
    (hs : storeSorted s) : storeSorted (storeDelete s k) :=
  List.Pairwise.sublist (List.filter_sublist s) hs

/-- The persistent table of `src/db.rs` over domain keys and values.  The
codec is lossless for the types used (spec §1 boundary), so the store is
modelled directly at the domain level; `putErr`/`getErr`/`delErr` inject
failures of the underlying store. -/
structure Db (K V : Type) where
  store : List (K × V)
  putErr : Option Nat := none
  getErr : Option Nat := none
  delErr : Option Nat := none

/-- `Db::put`: serialize, (encrypt,) write through the store. -/
def Db.put [LinearOrder K] (db : Db K V) (k : K) (v : V) : Except Nat (Db K V) :=
  match db.putErr with
  | some e => .error e
  | none => .ok { db with store := storePut db.store k v }

/-- `Db::get`: read through the store (decrypt, deserialize). -/
def Db.get [DecidableEq K] (db : Db K V) (k : K) : Except Nat (Option V) :=
  match db.getErr with
  | some e => .error e
  | none => .ok (mapLookup db.store k)

/-- `Db::contains_key` = `get_raw(..).is_some()`. -/
def Db.containsKey [DecidableEq K] (db : Db K V) (k : K) : Except Nat Bool :=
  match db.getErr with
  | some e => .error e
  | none => .ok (mapLookup db.store k).isSome

/-- `Db::delete`. -/
def Db.delete [DecidableEq K] (db : Db K V) (k : K) : Except Nat (Db K V) :=
  match db.delErr with
  | some e => .error e
  | none => .ok { db with store := storeDelete db.store k }

/-- Forward iteration positioned with `IteratorMode::From(k, Forward)`:
the cursor seeks to the first entry whose key is `≥ k`, and `next` then
walks the remaining entries in ascending order.  On the sorted store this
is `dropWhile (key < k)`. -/
def Db.iterFromForward [LinearOrder K] (db : Db K V) (k : K) : List (K × V) :=
  db.store.dropWhile (fun p => decide (p.1 < k))

/-- Forward iteration positioned with `IteratorMode::Start`: all entries
in ascending key order. -/
def Db.iterStart (db : Db K V) : List (K × V) :=
  db.store

/-! ## `MemTable` (`src/mem_table.rs`, the spec's FullMirror) -/

/-- `MemTable`: the `Db` plus a full in-memory mirror map. -/
structure MemTable (K V : Type) where
  db : Db K V
  map : List (K × V)

/-- `MemTable::with_hasher`: full forward scan of the table into the map. -/
def MemTable.new [DecidableEq K] (db : Db K V) : MemTable K V :=
  { db := db, map := db.iterStart.foldl (fun m p => mapInsert m p.1 p.2) [] }

/-- `MemTable::get`: reads the in-memory map only. -/
def MemTable.get [DecidableEq K] (t : MemTable K V) (k : K) : Option V :=
  mapLookup t.map k

/-- `MemTable::contains_key`: reads the in-memory map only. -/
def MemTable.containsKey [DecidableEq K] (t : MemTable K V) (k : K) : Bool :=
  (mapLookup t.map k).isSome

/-- `MemTable::put`: write through to the `Db`, then mirror the change. -/
def MemTable.put [LinearOrder K] (t : MemTable K V) (k : K) (v : V) :
    MemTable K V × Except Nat Unit :=
  match t.db.put k v with
  | .error e => (t, .error e)
  | .ok db' => ({ db := db', map := mapInsert t.map k v }, .ok ())

/-- `MemTable::update`: remove the key from the map, compute the new value
from the old one, write it through; on write failure re-read the key from
the `Db` (note the `?` on that read: a failing secondary read returns the
read error) and repopulate the map with whatever is durably present; on
success mirror the new value.  Returns the write result. -/
def MemTable.update [LinearOrder K] (t : MemTable K V) (k : K) (f : Option V → V) :
    MemTable K V × Except Nat Unit :=
  let old := mapLookup t.map k
  let map1 := mapErase t.map k
  let v := f old
  match t.db.put k v with
  | .ok db' => ({ db := db', map := mapInsert map1 k v }, .ok ())
  | .error e =>
    match t.db.get k with
    | .error e2 => ({ t with map := map1 }, .error e2)
    | .ok (some dv) => ({ t with map := mapInsert map1 k dv }, .error e)
    | .ok none => ({ t with map := map1 }, .error e)

/-! ## `LruTable` (`src/lru_table.rs`, the spec's SingleLevelCache) -/

/-- Modelled from the spec (§3 `Aged<T>`; `src/aged.rs` is not among the
sources): a cached value paired with the age at which it was last
touched. -/
structure Aged (V : Type) where
  age : Nat
  value : V

/-- Rust `map.iter().min_by_key(|t| t.1.age)`: the first entry (in
iteration order) with minimal age. -/
def minByAge {A : Type} : List (K × Aged A) → Option (K × Aged A)
  | [] => none
  | x :: xs => some (xs.foldl (fun best y => if y.2.age < best.2.age then y else best) x)

/-- Rust `usize::next_power_of_two`: the smallest power of two that is at
least `n` (and 1 for `n ≤ 1`). -/
def nextPow2 (n : Nat) : Nat :=
  2 ^ Nat.clog 2 n

/-- The allocated capacity of the map built by Rust's
`HashMap::with_capacity(c)` — what `map.capacity()` returns.  Rust only
guarantees it is at least `c`; concretely (hashbrown's
`capacity_to_buckets` followed by `bucket_mask_to_capacity`): a request
of 0 allocates nothing; fewer than 4 slots allocate 4 buckets (capacity
3); fewer than 8 allocate 8 buckets (capacity 7); otherwise
`next_power_of_two(c * 8 / 7)` buckets, 7/8 of which are usable.  So
`with_capacity(2).capacity() = 3`, `with_capacity(4).capacity() = 7`.
The caches never insert while the map is at this capacity
(`ensure_capacity` first evicts), so the map never reallocates and
`map.capacity()` keeps this value for the table's whole life. -/
def hashbrownCapacity (c : Nat) : Nat :=
  if c = 0 then 0
  else if c < 4 then 3
  else if c < 8 then 7
  else nextPow2 (c * 8 / 7) / 8 * 7

theorem hashbrownCapacity_pos (c : Nat) (h : 0 < c) : 0 < hashbrownCapacity c := by
  unfold hashbrownCapacity
  rw [if_neg (by omega)]
  by_cases h4 : c < 4
  · rw [if_pos h4]
    norm_num
  · rw [if_neg h4]
    by_cases h8 : c < 8
    · rw [if_pos h8]
      norm_num
    · rw [if_neg h8]
      have h9 : 9 ≤ c * 8 / 7 := by
        have h64 : (64 : Nat) ≤ c * 8 := by omega
        calc (9 : Nat) = 64 / 7 := by norm_num
          _ ≤ c * 8 / 7 := Nat.div_le_div_right h64
      have hle : c * 8 / 7 ≤ nextPow2 (c * 8 / 7) :=
        Nat.le_pow_clog (by norm_num) _
      have h16 : 9 ≤ nextPow2 (c * 8 / 7) := le_trans h9 hle
      omega

/-- `ensure_capacity` (identical in `src/lru_table.rs` and
`src/section_lru_table.rs`): `if self.map.capacity() == self.map.len()`,
remove one entry of minimal age.  `cap` is the capacity the table was
constructed with; the map's `capacity()` is its allocated capacity
`hashbrownCapacity cap` (constant, see there). -/
def lruEvictIfFull {A : Type} [DecidableEq K] (cap : Nat) (m : List (K × Aged A)) :
    List (K × Aged A) :=
  if m.length = hashbrownCapacity cap then
    match minByAge m with
    | some p => mapErase m p.1
    | none => m
  else m

/-- `LruTable`: age counter, owned `Db`, bounded map.  `capacity` is the
argument passed to `HashMap::with_capacity_and_hasher`; the map's
allocated capacity is `hashbrownCapacity capacity`. -/
structure LruTable (K V : Type) where
  age : Nat
  capacity : Nat
  db : Db K V
  map : List (K × Aged V)

/-- `LruTable::with_capacity_and_hasher`: `assert!(capacity > 0)` (a panic
is `none`), then an empty map and age 0. -/
def LruTable.withCapacity (db : Db K V) (capacity : Nat) : Option (LruTable K V) :=
  if 0 < capacity then
    some { age := 0, capacity := capacity, db := db, map := [] }
  else none

def LruTable.ensureCapacity [DecidableEq K] (t : LruTable K V) : LruTable K V :=
  { t with map := lruEvictIfFull t.capacity t.map }

/-- The tail of `LruTable::get`: `self.map.get_mut(key).map(|v| { *age += 1;
v.age = *age; &v.value })`. -/
def LruTable.touch [DecidableEq K] (t : LruTable K V) (k : K) :
    LruTable K V × Option V :=
  match mapLookup t.map k with
  | none => (t, none)
  | some a =>
    ({ t with age := t.age + 1, map := mapInsert t.map k ⟨t.age + 1, a.value⟩ },
      some a.value)

/-- `LruTable::get`: on miss, evict-if-full, then load from the `Db`
(a miss there short-circuits with `None`); insert with age 0; finally bump
the entry's age to a freshly incremented counter. -/
def LruTable.get [LinearOrder K] (t : LruTable K V) (k : K) :
    LruTable K V × Except Nat (Option V) :=
  if (mapLookup t.map k).isSome then
    let r := t.touch k
    (r.1, .ok r.2)
  else
    let t1 := t.ensureCapacity
    match t1.db.get k with
    | .error e => (t1, .error e)
    | .ok none => (t1, .ok none)
    | .ok (some v) =>
      let t2 := { t1 with map := mapInsert t1.map k ⟨0, v⟩ }
      let r := t2.touch k
      (r.1, .ok r.2)

/-- `LruTable::put`: write through to the `Db` first; on success bump the
counter and overwrite in place, or evict-if-full and insert. -/
def LruTable.put [LinearOrder K] (t : LruTable K V) (k : K) (v : V) :
    LruTable K V × Except Nat Unit :=
  match t.db.put k v with
  | .error e => (t, .error e)
  | .ok db' =>
    let age := t.age + 1
    match mapLookup t.map k with
    | some _ =>
      ({ t with db := db', age := age, map := mapInsert t.map k ⟨age, v⟩ }, .ok ())
    | none =>
      let t1 := LruTable.ensureCapacity { t with db := db', age := age }
      ({ t1 with map := mapInsert t1.map k ⟨age, v⟩ }, .ok ())

/-- `LruTable::update`: take the entry out of the map (`map.remove`),
compute the new value (reading the `Db` when not resident), write through,
evict-if-full only when the entry was not resident, then insert with a
freshly bumped age. -/
def LruTable.update [LinearOrder K] (t : LruTable K V) (k : K) (f : Option V → V) :
    LruTable K V × Except Nat Unit :=
  match mapLookup t.map k with
  | some aged =>
    let map1 := mapErase t.map k
    let newv := f (some aged.value)
    match t.db.put k newv with
    | .error e => ({ t with map := map1 }, .error e)
    | .ok db' =>
      let age := t.age + 1
      ({ t with db := db', age := age, map := mapInsert map1 k ⟨age, newv⟩ }, .ok ())
  | none =>
    match t.db.get k with
    | .error e => (t, .error e)
    | .ok old =>
      let newv := f old
      match t.db.put k newv with
      | .error e => (t, .error e)
      | .ok db' =>
        let t1 := LruTable.ensureCapacity { t with db := db' }
        let age := t1.age + 1
        ({ t1 with age := age, map := mapInsert t1.map k ⟨age, newv⟩ }, .ok ())

/-- `LruTable::delete`: delete from the `Db` first, then drop from the
map. -/
def LruTable.delete [LinearOrder K] (t : LruTable K V) (k : K) :
    LruTable K V × Except Nat Unit :=
  match t.db.delete k with
  | .error e => (t, .error e)
  | .ok db' => ({ t with db := db', map := mapErase t.map k }, .ok ())

/-- `LruTable::contains_key`: resident, or else ask the `Db`. -/
def LruTable.containsKey [LinearOrder K] (t : LruTable K V) (k : K) :
    Except Nat Bool :=
  if (mapLookup t.map k).isSome then .ok true else t.db.containsKey k

/-! ## `SectionLruTable` (`src/section_lru_table.rs`, the spec's
SectionedCache)

The on-disk key is the tuple `(Section, Key)`; rocksdb orders it by the
concatenated encodings, i.e. lexicographically section first.  `SK` is
that composite key with the lexicographic linear order. -/

structure SK (S K : Type) where
  sec : S
  key : K
deriving DecidableEq

theorem SK.toLex_injective {S K : Type} :
    Function.Injective (fun p : SK S K => toLex (p.sec, p.key)) := by
  intro a b h
  cases a
  cases b
  simp only [toLex_inj, Prod.mk.injEq] at h
  rw [SK.mk.injEq]
  exact h

instance {S K : Type} [LinearOrder S] [LinearOrder K] : LinearOrder (SK S K) :=
  LinearOrder.lift' (fun p => toLex (p.sec, p.key)) SK.toLex_injective

theorem SK.lt_iff {S K : Type} [LinearOrder S] [LinearOrder K] (a b : SK S K) :
    a < b ↔ a.sec < b.sec ∨ (a.sec = b.sec ∧ a.key < b.key) := by
  show toLex (a.sec, a.key) < toLex (b.sec, b.key) ↔ _
  rw [Prod.Lex.lt_iff]

/-- Modelled from the spec (§3, glossary; `src/min_value.rs` is not among
the sources): the `MinValue` capability — the smallest representable value
of a key type under its ordering, used as the sectioned scan's lower
bound. -/
class MinValue (K : Type) [LE K] where
  minVal : K
  minVal_le : ∀ k : K, minVal ≤ k

instance : MinValue Nat := ⟨0, Nat.zero_le⟩

/-- `load_map`: scan the `Db` forward from `(section, K::min_value())`,
stopping at the first key whose section component differs, inserting every
encountered entry into a fresh map. -/
def loadMap {S K V : Type} [LinearOrder S] [LinearOrder K] [MinValue K]
    (sec : S) (db : Db (SK S K) V) : List (K × V) :=
  ((db.iterFromForward ⟨sec, MinValue.minVal⟩).takeWhile
      (fun p => decide (p.1.sec = sec))).foldl
    (fun m p => mapInsert m p.1.key p.2) []

/-- `SectionLruTable`: age counter, owned `Db` keyed by `(Section, Key)`,
bounded map from section to aged per-section map. -/
structure SectionLruTable (S K V : Type) where
  age : Nat
  capacity : Nat
  db : Db (SK S K) V
  map : List (S × Aged (List (K × V)))

/-- `SectionLruTable::with_capacity_and_hasher`: `assert!(capacity > 0)`
(a panic is `none`), then an empty map and age 0. -/
def SectionLruTable.withCapacity {S K V : Type} (db : Db (SK S K) V) (capacity : Nat) :
    Option (SectionLruTable S K V) :=
  if 0 < capacity then
    some { age := 0, capacity := capacity, db := db, map := [] }
  else none

/-- `SectionLruTable::ensure_section_loaded`: bump the global counter; if
the section is not resident, evict-if-full and bulk-load it with age 0;
finally set the section's age to the counter. -/
def SectionLruTable.ensureSectionLoaded {S K V : Type} [LinearOrder S] [LinearOrder K]
    [MinValue K] (t : SectionLruTable S K V) (sec : S) : SectionLruTable S K V :=
  let t1 : SectionLruTable S K V := { t with age := t.age + 1 }
  let t2 : SectionLruTable S K V :=
    if (mapLookup t1.map sec).isSome then t1
    else
      { t1 with map :=
          (mapInsert (lruEvictIfFull t1.capacity t1.map) sec ⟨0, loadMap sec t1.db⟩) }
  match mapLookup t2.map sec with
  | some aged => { t2 with map := mapInsert t2.map sec ⟨t2.age, aged.value⟩ }
  | none => t2

/-- `SectionLruTable::get`: ensure the section is loaded, then look the
key up within it. -/
def SectionLruTable.get {S K V : Type} [LinearOrder S] [LinearOrder K] [MinValue K]
    (t : SectionLruTable S K V) (sec : S) (k : K) :
    SectionLruTable S K V × Option V :=
  let t' := t.ensureSectionLoaded sec
  (t', match mapLookup t'.map sec with
    | some aged => mapLookup aged.value k
    | none => none)

/-- `SectionLruTable::get_section`: ensure the section is loaded and
return its whole map. -/
def SectionLruTable.getSection {S K V : Type} [LinearOrder S] [LinearOrder K] [MinValue K]
    (t : SectionLruTable S K V) (sec : S) :
    SectionLruTable S K V × List (K × V) :=
  let t' := t.ensureSectionLoaded sec
  (t', match mapLookup t'.map sec with
    | some aged => aged.value
    | none => [])

/-- `SectionLruTable::put`: write through to the `Db` under the composite
key, then ensure the section is loaded and insert within it. -/
def SectionLruTable.put {S K V : Type} [LinearOrder S] [LinearOrder K] [MinValue K]
    (t : SectionLruTable S K V) (sec : S) (k : K) (v : V) :
    SectionLruTable S K V × Except Nat Unit :=
  match t.db.put ⟨sec, k⟩ v with
  | .error e => (t, .error e)
  | .ok db' =>
    let t2 := SectionLruTable.ensureSectionLoaded { t with db := db' } sec
    match mapLookup t2.map sec with
    | some aged =>
      ({ t2 with map := mapInsert t2.map sec ⟨aged.age, mapInsert aged.value k v⟩ },
        .ok ())
    | none => (t2, .ok ())

/-- `SectionLruTable::contains_key`: consult the resident section map if
present, else fall back to the `Db`. -/
def SectionLruTable.containsKey {S K V : Type} [LinearOrder S] [LinearOrder K]
    (t : SectionLruTable S K V) (sec : S) (k : K) : Except Nat Bool :=
  match mapLookup t.map sec with
  | some aged => .ok (mapLookup aged.value k).isSome
  | none => t.db.containsKey ⟨sec, k⟩

/-- `SectionLruTable::delete`: when the section is resident, delete from
the `Db` and mirror **only if** the key is present in the resident map;
when the section is not resident, always delete from the `Db`. -/
def SectionLruTable.delete {S K V : Type} [LinearOrder S] [LinearOrder K]
    (t : SectionLruTable S K V) (sec : S) (k : K) :
    SectionLruTable S K V × Except Nat Unit :=
  match mapLookup t.map sec with
  | some aged =>
    if (mapLookup aged.value k).isSome then
      match t.db.delete ⟨sec, k⟩ with
      | .error e => (t, .error e)
      | .ok db' =>
        ({ t with db := db', map := mapInsert t.map sec ⟨aged.age, mapErase aged.value k⟩ },
          .ok ())
    else (t, .ok ())
  | none =>
    match t.db.delete ⟨sec, k⟩ with
    | .error e => (t, .error e)
    | .ok db' => ({ t with db := db' }, .ok ())

/-! ## Further association-map and cache lemmas -/

theorem mapLookup_append [DecidableEq K] (m₁ m₂ : List (K × A)) (k : K) :
    mapLookup (m₁ ++ m₂) k =
      match mapLookup m₁ k with
      | some a => some a
      | none => mapLookup m₂ k := by
  induction m₁ with
  | nil => simp [mapLookup]
  | cons p t ih =>
    by_cases h : k = p.1
    · simp [mapLookup, h]
    · simp [mapLookup, h, ih]

theorem mapInsert_eq_append [DecidableEq K] (m : List (K × A)) (k : K) (a : A)
    (h : mapLookup m k = none) : mapInsert m k a = m ++ [(k, a)] := by
  induction m with
  | nil => rfl
  | cons p t ih =>
    simp only [mapLookup] at h
    by_cases hk : k = p.1
    · rw [if_pos hk] at h
      exact absurd h (by simp)
    · rw [if_neg hk] at h
      simp [mapInsert, hk, ih h]

theorem mapInsert_mapInsert [DecidableEq K] (m : List (K × A)) (k : K) (a b : A) :
    mapInsert (mapInsert m k a) k b = mapInsert m k b := by
  induction m with
  | nil => simp [mapInsert]
  | cons p t ih =>
    by_cases hk : k = p.1
    · simp [mapInsert, hk]
    · simp [mapInsert, hk, ih]

theorem mapLookup_mem [DecidableEq K] (m : List (K × A)) (k : K) (a : A)
    (hnd : (m.map Prod.fst).Nodup) (h : (k, a) ∈ m) : mapLookup m k = some a := by
  induction m with
  | nil => simp at h
  | cons p t ih =>
    simp only [List.map_cons, List.nodup_cons] at hnd
    rcases List.mem_cons.mp h with h1 | h1
    · rw [← h1]
      simp [mapLookup]
    · have hk : ¬ k = p.1 := fun hc => hnd.1 (List.mem_map.mpr ⟨(k, a), h1, hc⟩)
      simp only [mapLookup, if_neg hk]
      exact ih hnd.2 h1

theorem minByAge_mem {A : Type} (m : List (K × Aged A)) (p : K × Aged A)
    (h : minByAge m = some p) : p ∈ m := by
  cases m with
  | nil => simp [minByAge] at h
  | cons x xs =>
    simp only [minByAge, Option.some.injEq] at h
    subst h
    induction xs generalizing x with
    | nil => simp [List.foldl]
    | cons y ys ih =>
      simp only [List.foldl]
      by_cases hy : y.2.age < x.2.age
      · rw [if_pos hy]
        rcases List.mem_cons.mp (ih y) with h | h
        · rw [h]; simp
        · simp [h]
      · rw [if_neg hy]
        rcases List.mem_cons.mp (ih x) with h | h
        · rw [h]; simp
        · simp [h]

theorem foldlMin_le_init {A : Type} (x : K × Aged A) (xs : List (K × Aged A)) :
    (xs.foldl (fun best y => if y.2.age < best.2.age then y else best) x).2.age
      ≤ x.2.age := by
  induction xs generalizing x with
  | nil => exact Nat.le_refl _
  | cons y ys ih =>
    simp only [List.foldl]
    by_cases hy : y.2.age < x.2.age
    · rw [if_pos hy]
      exact (ih y).trans (Nat.le_of_lt hy)
    · rw [if_neg hy]
      exact ih x

theorem foldlMin_le_mem {A : Type} (x : K × Aged A) (xs : List (K × Aged A)) :
    ∀ q ∈ xs, (xs.foldl (fun best y => if y.2.age < best.2.age then y else best) x).2.age
      ≤ q.2.age := by
  induction xs generalizing x with
  | nil =>
    intro q hq
    simp at hq
  | cons y ys ih =>
    intro q hq
    simp only [List.foldl]
    rcases List.mem_cons.mp hq with h | h
    · subst h
      by_cases hy : q.2.age < x.2.age
      · rw [if_pos hy]
        exact foldlMin_le_init q ys
      · rw [if_neg hy]
        exact (foldlMin_le_init x ys).trans (Nat.le_of_not_lt hy)
    · by_cases hy : y.2.age < x.2.age
      · rw [if_pos hy]
        exact ih y q h
      · rw [if_neg hy]
        exact ih x q h

theorem minByAge_min {A : Type} (m : List (K × Aged A)) (p : K × Aged A)
    (h : minByAge m = some p) : ∀ q ∈ m, p.2.age ≤ q.2.age := by
  cases m with
  | nil => simp [minByAge] at h
  | cons x xs =>
    simp only [minByAge, Option.some.injEq] at h
    subst h
    intro q hq
    rcases List.mem_cons.mp hq with h | h
    · subst h
      exact foldlMin_le_init q xs
    · exact foldlMin_le_mem x xs q h

theorem LruTable.get_hit {K V : Type} [LinearOrder K] (t : LruTable K V) (k : K)
    (ag : Aged V) (h : mapLookup t.map k = some ag) :
    LruTable.get t k =
      ({ t with age := t.age + 1, map := mapInsert t.map k ⟨t.age + 1, ag.value⟩ },
        .ok (some ag.value)) := by
  simp [LruTable.get, LruTable.touch, h]

theorem LruTable.get_miss_found {K V : Type} [LinearOrder K] (t : LruTable K V) (k : K)
    (v : V) (hmiss : mapLookup t.map k = none) (hget : t.db.getErr = none)
    (hstore : mapLookup t.db.store k = some v) :
    LruTable.get t k =
      ({ t with
          age := t.age + 1
          map :=
            (mapInsert (mapInsert (lruEvictIfFull t.capacity t.map) k ⟨0, v⟩) k
              ⟨t.age + 1, v⟩) },
        .ok (some v)) := by
  obtain ⟨ag, cap, ⟨st, pe, ge, de⟩, mp⟩ := t
  dsimp only at hmiss hget hstore ⊢
  subst hget
  simp [LruTable.get, LruTable.touch, LruTable.ensureCapacity, Db.get, hmiss, hstore,
    mapLookup_insert_self]

theorem LruTable.put_ok_resident {K V : Type} [LinearOrder K] (t : LruTable K V) (k : K)
    (v : V) (ag : Aged V) (hput : t.db.putErr = none) (h : mapLookup t.map k = some ag) :
    LruTable.put t k v =
      ({ t with
          db := ({ t.db with store := storePut t.db.store k v })
          age := t.age + 1
          map := (mapInsert t.map k ⟨t.age + 1, v⟩) }, .ok ()) := by
  obtain ⟨age, cap, ⟨st, pe, ge, de⟩, mp⟩ := t
  dsimp only at hput h ⊢
  subst hput
  simp [LruTable.put, Db.put, h]

theorem LruTable.put_ok_fresh {K V : Type} [LinearOrder K] (t : LruTable K V) (k : K)
    (v : V) (hput : t.db.putErr = none) (h : mapLookup t.map k = none) :
    LruTable.put t k v =
      ({ t with
          db := ({ t.db with store := storePut t.db.store k v })
          age := t.age + 1
          map := (mapInsert (lruEvictIfFull t.capacity t.map) k ⟨t.age + 1, v⟩) },
        .ok ()) := by
  obtain ⟨age, cap, ⟨st, pe, ge, de⟩, mp⟩ := t
  dsimp only at hput h ⊢
  subst hput
  simp [LruTable.put, Db.put, LruTable.ensureCapacity, h]

theorem SectionLruTable.ensureSectionLoaded_resident {S K V : Type} [LinearOrder S]
    [LinearOrder K] [MinValue K] (t : SectionLruTable S K V) (sec : S)
    (ag : Aged (List (K × V))) (h : mapLookup t.map sec = some ag) :
    t.ensureSectionLoaded sec =
      { t with
        age := t.age + 1
        map := (mapInsert t.map sec ⟨t.age + 1, ag.value⟩) } := by
  simp [SectionLruTable.ensureSectionLoaded, h]

theorem SectionLruTable.ensureSectionLoaded_miss {S K V : Type} [LinearOrder S]
    [LinearOrder K] [MinValue K] (t : SectionLruTable S K V) (sec : S)
    (h : mapLookup t.map sec = none) :
    t.ensureSectionLoaded sec =
      { t with
        age := t.age + 1
        map :=
          (mapInsert (lruEvictIfFull t.capacity t.map) sec
            ⟨t.age + 1, loadMap sec t.db⟩) } := by
  simp [SectionLruTable.ensureSectionLoaded, h, mapLookup_insert_self, mapInsert_mapInsert]

theorem SectionLruTable.get_eval {S K V : Type} [LinearOrder S] [LinearOrder K]
    [MinValue K] (t : SectionLruTable S K V) (sec : S) (k : K) (ag : Aged (List (K × V)))
    (h : mapLookup t.map sec = some ag) :
    (SectionLruTable.get t sec k).2 = mapLookup ag.value k := by
  simp [SectionLruTable.get, SectionLruTable.ensureSectionLoaded_resident t sec ag h,
    mapLookup_insert_self]

theorem SectionLruTable.put_ok {S K V : Type} [LinearOrder S] [LinearOrder K] [MinValue K]
    (t : SectionLruTable S K V) (sec : S) (k : K) (v : V) (hput : t.db.putErr = none) :
    ∃ ag, mapLookup (SectionLruTable.put t sec k v).1.map sec = some ag
      ∧ mapLookup ag.value k = some v
      ∧ (SectionLruTable.put t sec k v).2 = .ok () := by
  obtain ⟨age, cap, ⟨st, pe, ge, de⟩, mp⟩ := t
  dsimp only at hput ⊢
  subst hput
  cases hsec : mapLookup mp sec with
  | some ag =>
    refine ⟨⟨age + 1, mapInsert ag.value k v⟩, ?_, mapLookup_insert_self _ _ _, ?_⟩
    · simp only [SectionLruTable.put, Db.put]
      rw [SectionLruTable.ensureSectionLoaded_resident _ sec ag hsec]
      simp [mapLookup_insert_self, mapInsert_mapInsert]
    · simp only [SectionLruTable.put, Db.put]
      rw [SectionLruTable.ensureSectionLoaded_resident _ sec ag hsec]
      simp [mapLookup_insert_self]
  | none =>
    refine ⟨⟨age + 1,
      mapInsert (loadMap sec ⟨storePut st ⟨sec, k⟩ v, none, ge, de⟩) k v⟩, ?_,
      mapLookup_insert_self _ _ _, ?_⟩
    · simp only [SectionLruTable.put, Db.put]
      rw [SectionLruTable.ensureSectionLoaded_miss _ sec hsec]
      simp [mapLookup_insert_self, mapInsert_mapInsert]
    · simp only [SectionLruTable.put, Db.put]
      rw [SectionLruTable.ensureSectionLoaded_miss _ sec hsec]
      simp [mapLookup_insert_self]

/-! ## Claim C1 -/

/-- C1 (counterexample).  The claim — every domain-ordered pair of keys
serializes in byte-lexicographic order, integers being fixed-width
big-endian and strings verbatim — is false for the codec the code
configures (`bincode::options().with_big_endian()`, i.e. varint):
`-1 < 0` as signed integers but the zigzag encoding sends `-1` to byte 1
and `0` to byte 0; the byte string `"ab" < "b"` but the length prefix
reverses the encoded order; and the `u64` value 0 serializes to a single
byte, not 8. -/
theorem C1_counterexample :
    ((-1 : Int) < 0 ∧ bytesLt (serializeI64 (-1)) (serializeI64 0) = false)
    ∧ (bytesLt [97, 98] [98] = true
        ∧ bytesLt (serializeBytes [97, 98]) (serializeBytes [98]) = false)
    ∧ (serializeU64 0).length = 1
    ∧ serializeBytes [98] ≠ [98] := by
  refine ⟨⟨by norm_num, ?_⟩, ⟨?_, ?_⟩, ?_, ?_⟩ <;> decide

/-- C1 (amended).  For unsigned primitive integer keys the configured
codec (bincode varint with big-endian payloads) is strictly
order-preserving: on the 64-bit range, `k1 < k2` holds exactly when
`serializeU64 k1 < serializeU64 k2` byte-lexicographically — so forward
iteration of the byte store in ascending byte order yields such keys in
ascending domain order.  (Fixed-width, verbatim-string, and
signed-integer order preservation do not hold; see the counterexample.) -/
theorem C1_amended (a b : Nat) (ha : a < 2 ^ 64) (hb : b < 2 ^ 64) :
    a < b ↔ bytesLt (serializeU64 a) (serializeU64 b) = true :=
  serializeU64_order_iff a b ha hb

/-- C1 witness: the amended theorem applied at `3 < 300`. -/
theorem C1_witness :
    3 < 2 ^ 64 ∧ 300 < 2 ^ 64
    ∧ ((3 : Nat) < 300 ↔ bytesLt (serializeU64 3) (serializeU64 300) = true) :=
  ⟨by norm_num, by norm_num, C1_amended 3 300 (by norm_num) (by norm_num)⟩

/-! ## Claim C2 -/

/-- C2 (code bug).  Nonce derivation is claimed pure and total: first 12
bytes when the key is long enough, else zero padding to 12 bytes, never
panicking, in both the Table path and the `Encrypt` implementation.
`src/encrypt.rs::prepare_nonce_aes_gcm` indeed implements the specified
total function, but `src/db.rs::prepare_nonce` runs
`fallback.copy_from_slice(&key)` over the whole 12-byte fallback buffer,
which panics (`none`) whenever the key is shorter than 12 bytes — e.g.
for the 4-byte key `[1,2,3,4]`, where the specified result exists and is
produced by the encrypt.rs version. -/
theorem C2_db_prepare_nonce_panics :
    prepareNonce [1, 2, 3, 4] = none
    ∧ nonceSpec [1, 2, 3, 4] = [1, 2, 3, 4, 0, 0, 0, 0, 0, 0, 0, 0]
    ∧ prepareNonceAesGcm [1, 2, 3, 4] = [1, 2, 3, 4, 0, 0, 0, 0, 0, 0, 0, 0]
    ∧ prepareNonce [1, 2, 3, 4, 5, 6, 7, 8, 9, 10, 11, 12, 13]
        = some [1, 2, 3, 4, 5, 6, 7, 8, 9, 10, 11, 12]
    ∧ (∀ key : List Nat, prepareNonceAesGcm key = nonceSpec key)
    ∧ (∀ key : List Nat, key.length < 12 → prepareNonce key = none) := by
  refine ⟨by decide, by decide, by decide, by decide, fun key => rfl, ?_⟩
  exact fun key h => prepareNonce_short_none key h

/-! ## Claim C3 -/

/-- C3 (counterexample).  The claim says a failing secondary read inside
`MemTable::update`'s write-failure recovery is swallowed and the original
write error returned; but the code re-reads with `self.db.get(&key)?`,
so when the write fails with error 1 and the read fails with error 2 the
call returns error 2, not the original error 1. -/
theorem C3_counterexample :
    (MemTable.update (K := Nat) (V := Nat)
        ⟨⟨[], some 1, some 2, none⟩, []⟩ 0 (fun _ => 5)).2 = .error 2
    ∧ (Except.error 2 : Except Nat Unit) ≠ .error 1 := by
  constructor
  · rfl
  · intro h
    exact absurd (Except.error.inj h) (by norm_num)

/-- C3 (amended).  When the write fails and the secondary read succeeds,
`MemTable::update` repopulates the map with whatever the store durably
holds (or leaves the key absent when the store has none), and returns the
original write error; afterward the mirror at that key equals the store.
When the secondary read itself fails, that read error — not the write
error — is returned. -/
theorem C3_amended {K V : Type} [LinearOrder K] (t : MemTable K V) (k : K)
    (f : Option V → V) (e : Nat) (hput : t.db.putErr = some e)
    (hget : t.db.getErr = none) (hnd : (t.map.map Prod.fst).Nodup) :
    (MemTable.update t k f).2 = .error e
    ∧ mapLookup (MemTable.update t k f).1.map k = mapLookup t.db.store k := by
  obtain ⟨⟨st, pe, ge, de⟩, mp⟩ := t
  dsimp only at hput hget hnd ⊢
  subst hput
  subst hget
  cases hl : mapLookup st k with
  | none =>
    simp [MemTable.update, Db.put, Db.get, hl, mapLookup_erase_self mp k hnd]
  | some dv =>
    simp [MemTable.update, Db.put, Db.get, hl, mapLookup_insert_self]

/-- C3 witness: the amended theorem at a table holding `0 ↦ 7` whose
store write fails with error 1 and whose read succeeds. -/
theorem C3_witness :
    (MemTable.update (K := Nat) (V := Nat)
        ⟨⟨[(0, 7)], some 1, none, none⟩, [(0, 7)]⟩ 0 (fun _ => 5)).2 = .error 1
    ∧ mapLookup (MemTable.update (K := Nat) (V := Nat)
        ⟨⟨[(0, 7)], some 1, none, none⟩, [(0, 7)]⟩ 0 (fun _ => 5)).1.map 0
      = mapLookup [(0, 7)] 0 :=
  C3_amended ⟨⟨[(0, 7)], some 1, none, none⟩, [(0, 7)]⟩ 0 (fun _ => 5) 1 rfl rfl
    (by decide)

/-! ## Claim C5 -/

/-- C5 (counterexample).  The claim says a failing `Table` put inside
`LruTable::update` leaves the cache map unchanged, a previously resident
key staying resident.  But the code takes the entry out with
`self.map.remove(key)` before the write: with key 3 resident (value 7) and
a store whose put fails with error 9, the call returns the error and the
map has lost the key. -/
theorem C5_counterexample :
    (LruTable.update (K := Nat) (V := Nat)
        ⟨1, 2, ⟨[(3, 7)], some 9, none, none⟩, [(3, ⟨1, 7⟩)]⟩ 3 (fun _ => 8)).1.map = []
    ∧ (LruTable.update (K := Nat) (V := Nat)
        ⟨1, 2, ⟨[(3, 7)], some 9, none, none⟩, [(3, ⟨1, 7⟩)]⟩ 3 (fun _ => 8)).2
      = .error 9 := by
  constructor <;> rfl

/-- C5 (amended).  In `LruTable::update` the write-through to the `Db`
happens before any insertion into the cache map, but a resident entry is
taken out of the map before the write: if the put fails (reads
succeeding), the call returns the put error, the map equals the original
map with the key removed (unchanged when the key was not resident), and
the store is unchanged. -/
theorem C5_amended {K V : Type} [LinearOrder K] (t : LruTable K V) (k : K)
    (f : Option V → V) (e : Nat) (hput : t.db.putErr = some e)
    (hget : t.db.getErr = none) :
    (LruTable.update t k f).1.map = mapErase t.map k
    ∧ (LruTable.update t k f).2 = .error e
    ∧ (LruTable.update t k f).1.db.store = t.db.store := by
  obtain ⟨ag, cap, ⟨st, pe, ge, de⟩, mp⟩ := t
  dsimp only at hput hget ⊢
  subst hput
  subst hget
  cases hl : mapLookup mp k with
  | none =>
    simp [LruTable.update, Db.put, Db.get, hl, mapErase_not_mem mp k hl]
  | some aged =>
    simp [LruTable.update, Db.put, Db.get, hl]

/-- C5 witness: the amended theorem at the counterexample state. -/
theorem C5_witness :
    (LruTable.update (K := Nat) (V := Nat)
        ⟨1, 2, ⟨[(3, 7)], some 9, none, none⟩, [(3, ⟨1, 7⟩)]⟩ 3 (fun _ => 8)).1.map
      = mapErase [(3, ⟨1, 7⟩)] 3
    ∧ (LruTable.update (K := Nat) (V := Nat)
        ⟨1, 2, ⟨[(3, 7)], some 9, none, none⟩, [(3, ⟨1, 7⟩)]⟩ 3 (fun _ => 8)).2
      = .error 9
    ∧ (LruTable.update (K := Nat) (V := Nat)
        ⟨1, 2, ⟨[(3, 7)], some 9, none, none⟩, [(3, ⟨1, 7⟩)]⟩ 3 (fun _ => 8)).1.db.store
      = [(3, 7)] :=
  C5_amended ⟨1, 2, ⟨[(3, 7)], some 9, none, none⟩, [(3, ⟨1, 7⟩)]⟩ 3 (fun _ => 8) 9
    rfl rfl

/-! ## Claim C6 -/

/-- C6.  Round trip: `put(k, v)` followed by `get(k)` returns `v`, for the
raw `Db`, `MemTable` (FullMirror), `LruTable` (SingleLevelCache), and
`SectionLruTable` (SectionedCache, under a (section, key) pair), whenever
the store write (and, for the raw table, the subsequent read) succeeds. -/
theorem C6_roundtrip {K V S : Type} [LinearOrder K] [LinearOrder S] [MinValue K]
    (db : Db K V) (k : K) (v : V) (hdput : db.putErr = none) (hdget : db.getErr = none)
    (mt : MemTable K V) (hmput : mt.db.putErr = none)
    (lt : LruTable K V) (hlput : lt.db.putErr = none)
    (st : SectionLruTable S K V) (sec : S) (hsput : st.db.putErr = none) :
    (∀ db', Db.put db k v = .ok db' → Db.get db' k = .ok (some v))
    ∧ (MemTable.get (MemTable.put mt k v).1 k = some v
        ∧ (MemTable.put mt k v).2 = .ok ())
    ∧ ((LruTable.get (LruTable.put lt k v).1 k).2 = .ok (some v)
        ∧ (LruTable.put lt k v).2 = .ok ())
    ∧ ((SectionLruTable.get (SectionLruTable.put st sec k v).1 sec k).2 = some v
        ∧ (SectionLruTable.put st sec k v).2 = .ok ()) := by
  refine ⟨?_, ?_, ?_, ?_⟩
  · intro db' h
    obtain ⟨st0, pe, ge, de⟩ := db
    dsimp only at hdput hdget
    subst hdput
    subst hdget
    simp only [Db.put, Except.ok.injEq] at h
    subst h
    simp [Db.get, mapLookup_storePut_self]
  · obtain ⟨⟨st1, pe1, ge1, de1⟩, mp1⟩ := mt
    dsimp only at hmput
    subst hmput
    constructor
    · simp [MemTable.put, MemTable.get, Db.put, mapLookup_insert_self]
    · simp [MemTable.put, Db.put]
  · cases hres : mapLookup lt.map k with
    | some ag =>
      rw [LruTable.put_ok_resident lt k v ag hlput hres]
      refine ⟨?_, rfl⟩
      rw [LruTable.get_hit _ k ⟨lt.age + 1, v⟩ (mapLookup_insert_self _ _ _)]
    | none =>
      rw [LruTable.put_ok_fresh lt k v hlput hres]
      refine ⟨?_, rfl⟩
      rw [LruTable.get_hit _ k ⟨lt.age + 1, v⟩ (mapLookup_insert_self _ _ _)]
  · obtain ⟨ag, hsec, hin, hok⟩ := SectionLruTable.put_ok st sec k v hsput
    refine ⟨?_, hok⟩
    rw [SectionLruTable.get_eval _ sec k ag hsec, hin]

/-- C6 witness: the round trips at `k = 4`, `v = 11`, section 2, over
concrete healthy tables. -/
theorem C6_witness :
    (∀ db', Db.put (K := Nat) (V := Nat) ⟨[], none, none, none⟩ 4 11 = .ok db' →
      Db.get db' 4 = .ok (some 11))
    ∧ (MemTable.get (MemTable.put (K := Nat) (V := Nat)
          ⟨⟨[], none, none, none⟩, []⟩ 4 11).1 4 = some 11
        ∧ (MemTable.put (K := Nat) (V := Nat) ⟨⟨[], none, none, none⟩, []⟩ 4 11).2 = .ok ())
    ∧ ((LruTable.get (LruTable.put (K := Nat) (V := Nat)
          ⟨0, 2, ⟨[], none, none, none⟩, []⟩ 4 11).1 4).2 = .ok (some 11)
        ∧ (LruTable.put (K := Nat) (V := Nat)
          ⟨0, 2, ⟨[], none, none, none⟩, []⟩ 4 11).2 = .ok ())
    ∧ ((SectionLruTable.get (SectionLruTable.put (S := Nat) (K := Nat) (V := Nat)
          ⟨0, 2, ⟨[], none, none, none⟩, []⟩ 2 4 11).1 2 4).2 = some 11
        ∧ (SectionLruTable.put (S := Nat) (K := Nat) (V := Nat)
          ⟨0, 2, ⟨[], none, none, none⟩, []⟩ 2 4 11).2 = .ok ()) :=
  C6_roundtrip ⟨[], none, none, none⟩ 4 11 rfl rfl ⟨⟨[], none, none, none⟩, []⟩ rfl
    ⟨0, 2, ⟨[], none, none, none⟩, []⟩ rfl ⟨0, 2, ⟨[], none, none, none⟩, []⟩ 2 rfl

/-! ## Sectioned-scan lemmas (for C7) -/

theorem dropWhile_sorted_filter {K V : Type} [LinearOrder K] (s : List (K × V)) (x : K)
    (hs : storeSorted s) :
    s.dropWhile (fun p => decide (p.1 < x)) = s.filter (fun p => decide (¬ p.1 < x)) := by
  induction s with
  | nil => rfl
  | cons p t ih =>
    rw [storeSorted, List.pairwise_cons] at hs
    by_cases hp : p.1 < x
    · rw [List.dropWhile_cons, List.filter_cons]
      rw [if_pos (by simpa using hp), if_neg (by simpa using hp)]
      exact ih hs.2
    · rw [List.dropWhile_cons, List.filter_cons]
      rw [if_neg (by simpa using hp), if_pos (by simpa using hp)]
      congr 1
      symm
      rw [List.filter_eq_self]
      intro q hq
      have : p.1 < q.1 := hs.1 q hq
      simp only [decide_eq_true_eq]
      intro hc
      exact hp (lt_trans this hc)

theorem takeWhile_sec_filter {S K V : Type} [LinearOrder S] [LinearOrder K]
    (sec : S) (low : SK S K) (hlowsec : low.sec = sec)
    (s : List (SK S K × V)) (hs : storeSorted s)
    (hge : ∀ p ∈ s, ¬ p.1 < low) :
    s.takeWhile (fun p => decide (p.1.sec = sec))
      = s.filter (fun p => decide (p.1.sec = sec)) := by
  induction s with
  | nil => rfl
  | cons p t ih =>
    rw [storeSorted, List.pairwise_cons] at hs
    by_cases hsec : p.1.sec = sec
    · rw [List.takeWhile_cons, List.filter_cons]
      rw [if_pos (by simpa using hsec), if_pos (by simpa using hsec)]
      congr 1
      exact ih hs.2 (fun q hq => hge q (List.mem_cons_of_mem p hq))
    · rw [List.takeWhile_cons, List.filter_cons]
      rw [if_neg (by simpa using hsec), if_neg (by simpa using hsec)]
      have hplow : sec < p.1.sec := by
        have h1 := hge p (List.mem_cons_self p t)
        rw [SK.lt_iff] at h1
        push_neg at h1
        rw [hlowsec] at h1
        rcases lt_trichotomy sec p.1.sec with h | h | h
        · exact h
        · exact absurd h.symm hsec
        · exact absurd h (not_lt_of_ge h1.1)
      symm
      rw [List.filter_eq_nil_iff]
      intro q hq
      have hlt : p.1 < q.1 := hs.1 q hq
      rw [SK.lt_iff] at hlt
      have : sec < q.1.sec := by
        rcases hlt with h | h
        · exact lt_trans hplow h
        · rw [← h.1]
          exact hplow
      simp only [decide_eq_true_eq]
      exact fun hc => absurd (hc ▸ this) (lt_irrefl sec)

theorem foldl_mapInsert_eq_append {K V : Type} [DecidableEq K]
    (l : List (K × V)) (acc : List (K × V)) (hnd : (l.map Prod.fst).Nodup)
    (hdisj : ∀ p ∈ l, mapLookup acc p.1 = none) :
    l.foldl (fun m p => mapInsert m p.1 p.2) acc = acc ++ l := by
  induction l generalizing acc with
  | nil => simp
  | cons p t ih =>
    simp only [List.map_cons, List.nodup_cons] at hnd
    rw [List.foldl_cons]
    rw [mapInsert_eq_append acc p.1 p.2 (hdisj p (List.mem_cons_self p t))]
    rw [ih (acc ++ [(p.1, p.2)]) hnd.2]
    · simp
    · intro q hq
      rw [mapLookup_append]
      rw [hdisj q (List.mem_cons_of_mem p hq)]
      have hqp : ¬ q.1 = p.1 := by
        intro hc
        exact hnd.1 (hc ▸ List.mem_map.mpr ⟨q, hq, rfl⟩)
      simp [mapLookup, hqp]

/-! ## Capacity-invariant machinery (for C4) -/

theorem mapInsert_length_le [DecidableEq K] (m : List (K × A)) (k : K) (a : A) :
    (mapInsert m k a).length ≤ m.length + 1 := by
  cases h : mapLookup m k with
  | none => rw [mapInsert_length_of_lookup_none m k a h]
  | some b => rw [mapInsert_length_of_lookup_some m k a b h]; omega

theorem lruEvictIfFull_length_le {A : Type} [DecidableEq K] (cap : Nat)
    (m : List (K × Aged A)) : (lruEvictIfFull cap m).length ≤ m.length := by
  unfold lruEvictIfFull
  split
  · split
    · exact mapErase_length_le _ _
    · exact Nat.le_refl _
  · exact Nat.le_refl _

theorem lruEvictIfFull_length_lt {A : Type} [DecidableEq K] (cap : Nat)
    (m : List (K × Aged A)) (hcap : 0 < hashbrownCapacity cap)
    (hlen : m.length ≤ hashbrownCapacity cap)
    (hnd : (m.map Prod.fst).Nodup) :
    (lruEvictIfFull cap m).length < hashbrownCapacity cap := by
  unfold lruEvictIfFull
  by_cases h : m.length = hashbrownCapacity cap
  · rw [if_pos h]
    cases hm : minByAge m with
    | none =>
      simp only [hm]
      cases m with
      | nil =>
        simp only [List.length_nil] at h
        omega
      | cons x xs => simp [minByAge] at hm
    | some p =>
      simp only [hm]
      have hmem := minByAge_mem m p hm
      have hlk : mapLookup m p.1 = some p.2 := by
        apply mapLookup_mem m p.1 p.2 hnd
        rw [Prod.mk.eta]
        exact hmem
      have := mapErase_length_of_lookup_some m p.1 p.2 hlk
      omega
  · rw [if_neg h]
    omega

theorem lruEvictIfFull_nodup {A : Type} [DecidableEq K] (cap : Nat)
    (m : List (K × Aged A)) (hnd : (m.map Prod.fst).Nodup) :
    ((lruEvictIfFull cap m).map Prod.fst).Nodup := by
  unfold lruEvictIfFull
  split
  · split
    · exact mapErase_keys_nodup _ _ hnd
    · exact hnd
  · exact hnd

/-- The `LruTable` operations quantified over in the capacity claim. -/
inductive LruOp (K V : Type) where
  | get (k : K)
  | put (k : K) (v : V)
  | upd (k : K) (f : Option V → V)
  | del (k : K)

def LruTable.applyOp {K V : Type} [LinearOrder K] (t : LruTable K V) :
    LruOp K V → LruTable K V
  | .get k => (t.get k).1
  | .put k v => (t.put k v).1
  | .upd k f => (t.update k f).1
  | .del k => (t.delete k).1

def LruTable.applyOps {K V : Type} [LinearOrder K] (t : LruTable K V)
    (ops : List (LruOp K V)) : LruTable K V :=
  ops.foldl LruTable.applyOp t

/-- Well-formedness of an `LruTable`: positive configured capacity,
resident count within the map's allocated capacity, distinct keys. -/
def LruWF {K V : Type} (t : LruTable K V) : Prop :=
  0 < t.capacity ∧ t.map.length ≤ hashbrownCapacity t.capacity
    ∧ (t.map.map Prod.fst).Nodup

theorem LruTable.applyOp_wf {K V : Type} [LinearOrder K] (t : LruTable K V)
    (o : LruOp K V) (h : LruWF t) :
    LruWF (t.applyOp o) ∧ (t.applyOp o).capacity = t.capacity := by
  obtain ⟨hcap, hlen, hnd⟩ := h
  obtain ⟨age, cap, db0, mp⟩ := t
  dsimp only at hcap hlen hnd
  cases o with
  | get k =>
    simp only [LruTable.applyOp]
    unfold LruTable.get LruTable.touch LruTable.ensureCapacity
    cases hl : mapLookup mp k with
    | some a =>
      simp only [hl, Option.isSome_some, if_true]
      refine ⟨⟨hcap, ?_, mapInsert_keys_nodup _ _ _ hnd⟩, trivial⟩
      rw [mapInsert_length_of_lookup_some mp k _ a hl]
      exact hlen
    | none =>
      simp only [hl, Option.isSome_none, Bool.false_eq_true, if_false]
      have hevlt := lruEvictIfFull_length_lt cap mp (hashbrownCapacity_pos cap hcap) hlen hnd
      have hevnd := lruEvictIfFull_nodup cap mp hnd
      cases hg : Db.get db0 k with
      | error e => exact ⟨⟨hcap, le_of_lt hevlt, hevnd⟩, rfl⟩
      | ok ov =>
        cases ov with
        | none => exact ⟨⟨hcap, le_of_lt hevlt, hevnd⟩, rfl⟩
        | some v =>
          dsimp only
          rw [mapLookup_insert_self]
          dsimp only
          refine ⟨⟨hcap, ?_, ?_⟩, rfl⟩
          · dsimp only
            rw [mapInsert_length_of_lookup_some _ k _ _ (mapLookup_insert_self _ _ _)]
            have := mapInsert_length_le (lruEvictIfFull cap mp) k
              (⟨0, v⟩ : Aged V)
            omega
          · exact mapInsert_keys_nodup _ _ _ (mapInsert_keys_nodup _ _ _ hevnd)
  | put k v =>
    simp only [LruTable.applyOp]
    unfold LruTable.put LruTable.ensureCapacity
    cases hp : Db.put db0 k v with
    | error e => exact ⟨⟨hcap, hlen, hnd⟩, rfl⟩
    | ok db1 =>
      cases hl : mapLookup mp k with
      | some a =>
        dsimp only
        refine ⟨⟨hcap, ?_, mapInsert_keys_nodup _ _ _ hnd⟩, rfl⟩
        rw [mapInsert_length_of_lookup_some mp k _ a hl]
        exact hlen
      | none =>
        dsimp only
        have hevlt := lruEvictIfFull_length_lt cap mp (hashbrownCapacity_pos cap hcap) hlen hnd
        have hevnd := lruEvictIfFull_nodup cap mp hnd
        refine ⟨⟨hcap, ?_, mapInsert_keys_nodup _ _ _ hevnd⟩, rfl⟩
        dsimp only
        have := mapInsert_length_le (lruEvictIfFull cap mp) k (⟨age + 1, v⟩ : Aged V)
        omega
  | upd k f =>
    simp only [LruTable.applyOp]
    unfold LruTable.update LruTable.ensureCapacity
    cases hl : mapLookup mp k with
    | some a =>
      dsimp only
      cases hp : Db.put db0 k (f (some a.value)) with
      | error e =>
        refine ⟨⟨hcap, ?_, mapErase_keys_nodup _ _ hnd⟩, rfl⟩
        exact le_trans (mapErase_length_le mp k) hlen
      | ok db1 =>
        dsimp only
        refine ⟨⟨hcap, ?_, mapInsert_keys_nodup _ _ _ (mapErase_keys_nodup _ _ hnd)⟩, rfl⟩
        dsimp only
        have h1 := mapErase_length_of_lookup_some mp k a hl
        have h2 := mapInsert_length_le (mapErase mp k) k
          (⟨age + 1, f (some a.value)⟩ : Aged V)
        omega
    | none =>
      dsimp only
      cases hg : Db.get db0 k with
      | error e => exact ⟨⟨hcap, hlen, hnd⟩, rfl⟩
      | ok ov =>
        dsimp only
        cases hp : Db.put db0 k (f ov) with
        | error e => exact ⟨⟨hcap, hlen, hnd⟩, rfl⟩
        | ok db1 =>
          dsimp only
          have hevlt := lruEvictIfFull_length_lt cap mp (hashbrownCapacity_pos cap hcap) hlen hnd
          have hevnd := lruEvictIfFull_nodup cap mp hnd
          refine ⟨⟨hcap, ?_, mapInsert_keys_nodup _ _ _ hevnd⟩, rfl⟩
          dsimp only
          have := mapInsert_length_le (lruEvictIfFull cap mp) k
            (⟨age + 1, f ov⟩ : Aged V)
          omega
  | del k =>
    simp only [LruTable.applyOp]
    unfold LruTable.delete
    cases hd : Db.delete db0 k with
    | error e => exact ⟨⟨hcap, hlen, hnd⟩, rfl⟩
    | ok db1 =>
      dsimp only
      refine ⟨⟨hcap, ?_, mapErase_keys_nodup _ _ hnd⟩, rfl⟩
      dsimp only
      exact le_trans (mapErase_length_le mp k) hlen

theorem LruTable.applyOps_wf {K V : Type} [LinearOrder K] (t : LruTable K V)
    (ops : List (LruOp K V)) (h : LruWF t) :
    LruWF (t.applyOps ops) ∧ (t.applyOps ops).capacity = t.capacity := by
  induction ops generalizing t with
  | nil => exact ⟨h, rfl⟩
  | cons o rest ih =>
    obtain ⟨hw, hcap⟩ := ih (t.applyOp o) (t.applyOp_wf o h).1
    exact ⟨hw, hcap.trans (t.applyOp_wf o h).2⟩

/-- The `SectionLruTable` operations quantified over in the capacity
claim. -/
inductive SecOp (S K V : Type) where
  | get (sec : S) (k : K)
  | getSection (sec : S)
  | put (sec : S) (k : K) (v : V)
  | del (sec : S) (k : K)

def SectionLruTable.applyOp {S K V : Type} [LinearOrder S] [LinearOrder K] [MinValue K]
    (t : SectionLruTable S K V) : SecOp S K V → SectionLruTable S K V
  | .get sec k => (t.get sec k).1
  | .getSection sec => (t.getSection sec).1
  | .put sec k v => (t.put sec k v).1
  | .del sec k => (t.delete sec k).1

def SectionLruTable.applyOps {S K V : Type} [LinearOrder S] [LinearOrder K] [MinValue K]
    (t : SectionLruTable S K V) (ops : List (SecOp S K V)) : SectionLruTable S K V :=
  ops.foldl SectionLruTable.applyOp t

/-- Well-formedness of a `SectionLruTable`: positive configured capacity,
resident section count within the map's allocated capacity, distinct
section keys. -/
def SecWF {S K V : Type} (t : SectionLruTable S K V) : Prop :=
  0 < t.capacity ∧ t.map.length ≤ hashbrownCapacity t.capacity
    ∧ (t.map.map Prod.fst).Nodup

theorem SectionLruTable.ensureSectionLoaded_wf {S K V : Type} [LinearOrder S]
    [LinearOrder K] [MinValue K] (t : SectionLruTable S K V) (sec : S) (h : SecWF t) :
    SecWF (t.ensureSectionLoaded sec)
    ∧ (t.ensureSectionLoaded sec).capacity = t.capacity
    ∧ (mapLookup (t.ensureSectionLoaded sec).map sec).isSome := by
  obtain ⟨hcap, hlen, hnd⟩ := h
  cases hl : mapLookup t.map sec with
  | some ag =>
    rw [SectionLruTable.ensureSectionLoaded_resident t sec ag hl]
    refine ⟨⟨hcap, ?_, ?_⟩, rfl, ?_⟩
    · dsimp only
      rw [mapInsert_length_of_lookup_some _ _ _ ag hl]
      exact hlen
    · dsimp only
      exact mapInsert_keys_nodup _ _ _ hnd
    · dsimp only
      rw [mapLookup_insert_self]
      rfl
  | none =>
    rw [SectionLruTable.ensureSectionLoaded_miss t sec hl]
    have hevlt := lruEvictIfFull_length_lt t.capacity t.map (hashbrownCapacity_pos t.capacity hcap) hlen hnd
    have hevnd := lruEvictIfFull_nodup t.capacity t.map hnd
    refine ⟨⟨hcap, ?_, ?_⟩, rfl, ?_⟩
    · dsimp only
      have := mapInsert_length_le (lruEvictIfFull t.capacity t.map) sec
        (⟨t.age + 1, loadMap sec t.db⟩ : Aged (List (K × V)))
      omega
    · dsimp only
      exact mapInsert_keys_nodup _ _ _ hevnd
    · dsimp only
      rw [mapLookup_insert_self]
      rfl

theorem SectionLruTable.applyOpSec_wf {S K V : Type} [LinearOrder S] [LinearOrder K]
    [MinValue K] (t : SectionLruTable S K V) (o : SecOp S K V) (h : SecWF t) :
    SecWF (t.applyOp o) ∧ (t.applyOp o).capacity = t.capacity := by
  cases o with
  | get sec k =>
    have := SectionLruTable.ensureSectionLoaded_wf t sec h
    exact ⟨this.1, this.2.1⟩
  | getSection sec =>
    have := SectionLruTable.ensureSectionLoaded_wf t sec h
    exact ⟨this.1, this.2.1⟩
  | put sec k v =>
    simp only [SectionLruTable.applyOp, SectionLruTable.put]
    cases hp : t.db.put ⟨sec, k⟩ v with
    | error e => exact ⟨h, rfl⟩
    | ok db1 =>
      dsimp only
      have hw' : SecWF { t with db := db1 } := h
      have hens := SectionLruTable.ensureSectionLoaded_wf { t with db := db1 } sec hw'
      obtain ⟨⟨hcap2, hlen2, hnd2⟩, hcap2eq, hsome⟩ := hens
      cases hl2 : mapLookup (SectionLruTable.ensureSectionLoaded { t with db := db1 } sec).map
          sec with
      | none =>
        rw [hl2] at hsome
        exact absurd hsome (by simp)
      | some ag =>
        dsimp only
        refine ⟨⟨hcap2, ?_, mapInsert_keys_nodup _ _ _ hnd2⟩, hcap2eq⟩
        dsimp only
        rw [mapInsert_length_of_lookup_some _ _ _ ag hl2]
        exact hlen2
  | del sec k =>
    simp only [SectionLruTable.applyOp, SectionLruTable.delete]
    obtain ⟨hcap, hlen, hnd⟩ := h
    cases hl : mapLookup t.map sec with
    | some ag =>
      dsimp only
      by_cases hk : (mapLookup ag.value k).isSome
      · rw [if_pos hk]
        cases hd : t.db.delete ⟨sec, k⟩ with
        | error e => exact ⟨⟨hcap, hlen, hnd⟩, rfl⟩
        | ok db1 =>
          dsimp only
          refine ⟨⟨hcap, ?_, mapInsert_keys_nodup _ _ _ hnd⟩, rfl⟩
          dsimp only
          rw [mapInsert_length_of_lookup_some _ _ _ ag hl]
          exact hlen
      · rw [if_neg hk]
        exact ⟨⟨hcap, hlen, hnd⟩, rfl⟩
    | none =>
      dsimp only
      cases hd : t.db.delete ⟨sec, k⟩ with
      | error e => exact ⟨⟨hcap, hlen, hnd⟩, rfl⟩
      | ok db1 => exact ⟨⟨hcap, hlen, hnd⟩, rfl⟩

theorem SectionLruTable.applyOpsSec_wf {S K V : Type} [LinearOrder S] [LinearOrder K]
    [MinValue K] (t : SectionLruTable S K V) (ops : List (SecOp S K V)) (h : SecWF t) :
    SecWF (t.applyOps ops) ∧ (t.applyOps ops).capacity = t.capacity := by
  induction ops generalizing t with
  | nil => exact ⟨h, rfl⟩
  | cons o rest ih =>
    obtain ⟨hw, hcap⟩ := ih (t.applyOp o) (t.applyOpSec_wf o h).1
    exact ⟨hw, hcap.trans (t.applyOpSec_wf o h).2⟩

theorem minByAge_isSome {A : Type} (x : K × Aged A) (xs : List (K × Aged A)) :
    ∃ p, minByAge (x :: xs) = some p := by
  simp [minByAge]

/-! ## Eviction-sequence machinery (for C8) -/

/-- Issue a sequence of puts in order (discarding results — all succeed
when the store is healthy). -/
def LruTable.applyPuts {K V : Type} [LinearOrder K] (t : LruTable K V)
    (l : List (K × V)) : LruTable K V :=
  l.foldl (fun t p => (t.put p.1 p.2).1) t

/-- The map built by consecutive puts starting at age `a`: the `i`-th
entry carries age `a + i + 1`. -/
def agedFrom {K V : Type} (a : Nat) : List (K × V) → List (K × Aged V)
  | [] => []
  | p :: t => (p.1, ⟨a + 1, p.2⟩) :: agedFrom (a + 1) t

theorem agedFrom_keys {K V : Type} (a : Nat) (l : List (K × V)) :
    (agedFrom a l).map Prod.fst = l.map Prod.fst := by
  induction l generalizing a with
  | nil => rfl
  | cons p t ih => simp [agedFrom, ih]

theorem agedFrom_age_lb {K V : Type} (a : Nat) (l : List (K × V)) :
    ∀ q ∈ agedFrom a l, a + 1 ≤ q.2.age := by
  induction l generalizing a with
  | nil =>
    intro q hq
    simp [agedFrom] at hq
  | cons p t ih =>
    intro q hq
    rcases List.mem_cons.mp hq with h | h
    · rw [h]
    · have := ih (a + 1) q h
      omega

theorem agedFrom_lookup {K V : Type} [DecidableEq K] (a : Nat) (l : List (K × V))
    (hnd : (l.map Prod.fst).Nodup) :
    ∀ q ∈ l, ∃ ag, mapLookup (agedFrom a l) q.1 = some ag ∧ ag.value = q.2 := by
  induction l generalizing a with
  | nil =>
    intro q hq
    simp at hq
  | cons p t ih =>
    simp only [List.map_cons, List.nodup_cons] at hnd
    intro q hq
    rcases List.mem_cons.mp hq with h | h
    · subst h
      exact ⟨⟨a + 1, q.2⟩, by simp [agedFrom, mapLookup], rfl⟩
    · have hqp : ¬ q.1 = p.1 := by
        intro hc
        exact hnd.1 (hc ▸ List.mem_map.mpr ⟨q, h, rfl⟩)
      obtain ⟨ag, h1, h2⟩ := ih (a + 1) hnd.2 q h
      exact ⟨ag, by simp [agedFrom, mapLookup, hqp, h1], h2⟩

theorem minByAge_head {A : Type} (x : K × Aged A) (xs : List (K × Aged A))
    (h : ∀ q ∈ xs, x.2.age < q.2.age) : minByAge (x :: xs) = some x := by
  simp only [minByAge, Option.some.injEq]
  induction xs with
  | nil => rfl
  | cons y ys ih =>
    simp only [List.foldl]
    rw [if_neg (Nat.not_lt.mpr (Nat.le_of_lt (h y (List.mem_cons_self y ys))))]
    exact ih (fun q hq => h q (List.mem_cons_of_mem y hq))

theorem lruEvictIfFull_not_full {A : Type} [DecidableEq K] (cap : Nat)
    (m : List (K × Aged A)) (h : ¬ m.length = hashbrownCapacity cap) :
    lruEvictIfFull cap m = m := by
  unfold lruEvictIfFull
  rw [if_neg h]

/-- Filling phase: puts of fresh distinct keys that fit within capacity
append entries with consecutive ages and touch nothing else. -/
theorem applyPuts_fill {K V : Type} [LinearOrder K] (l : List (K × V))
    (t : LruTable K V) (hnd : (l.map Prod.fst).Nodup)
    (hdisj : ∀ p ∈ l, mapLookup t.map p.1 = none)
    (hlen : t.map.length + l.length ≤ hashbrownCapacity t.capacity)
    (hput : t.db.putErr = none) :
    (t.applyPuts l).map = t.map ++ agedFrom t.age l
    ∧ (t.applyPuts l).age = t.age + l.length
    ∧ (t.applyPuts l).capacity = t.capacity
    ∧ (t.applyPuts l).db.putErr = none
    ∧ (t.applyPuts l).db.getErr = t.db.getErr
    ∧ (∀ q ∈ l, mapLookup (t.applyPuts l).db.store q.1 = some q.2)
    ∧ (∀ k, k ∉ l.map Prod.fst →
        mapLookup (t.applyPuts l).db.store k = mapLookup t.db.store k) := by
  induction l generalizing t with
  | nil =>
    refine ⟨by simp [LruTable.applyPuts, agedFrom], by simp [LruTable.applyPuts], rfl, hput,
      rfl, by simp, fun k _ => rfl⟩
  | cons p rest ih =>
    simp only [List.map_cons, List.nodup_cons] at hnd
    have hfreshp : mapLookup t.map p.1 = none := hdisj p (List.mem_cons_self p rest)
    have hnofull : ¬ t.map.length = hashbrownCapacity t.capacity := by
      simp only [List.length_cons] at hlen
      omega
    have hstep : (t.put p.1 p.2).1 =
        { t with
          db := ({ t.db with store := storePut t.db.store p.1 p.2 })
          age := t.age + 1
          map := (t.map ++ [(p.1, ⟨t.age + 1, p.2⟩)]) } := by
      rw [LruTable.put_ok_fresh t p.1 p.2 hput hfreshp]
      dsimp only
      rw [lruEvictIfFull_not_full t.capacity t.map hnofull]
      rw [mapInsert_eq_append t.map p.1 _ hfreshp]
    have happ : t.applyPuts (p :: rest) = ((t.put p.1 p.2).1).applyPuts rest := by
      simp [LruTable.applyPuts]
    rw [happ, hstep]
    have hdisj' : ∀ q ∈ rest,
        mapLookup (t.map ++ [(p.1, (⟨t.age + 1, p.2⟩ : Aged V))]) q.1 = none := by
      intro q hq
      rw [mapLookup_append]
      rw [hdisj q (List.mem_cons_of_mem p hq)]
      have hqp : ¬ q.1 = p.1 := by
        intro hc
        exact hnd.1 (hc ▸ List.mem_map.mpr ⟨q, hq, rfl⟩)
      simp [mapLookup, hqp]
    have hlen' : (t.map ++ [(p.1, (⟨t.age + 1, p.2⟩ : Aged V))]).length + rest.length
        ≤ hashbrownCapacity t.capacity := by
      simp only [List.length_append, List.length_singleton]
      simp only [List.length_cons] at hlen
      omega
    obtain ⟨hmap, hage, hcap, hputE, hgetE, hstore, hkeep⟩ :=
      ih { t with
            db := ({ t.db with store := storePut t.db.store p.1 p.2 })
            age := t.age + 1
            map := (t.map ++ [(p.1, ⟨t.age + 1, p.2⟩)]) }
        hnd.2 hdisj' hlen' hput
    refine ⟨?_, ?_, hcap, hputE, hgetE, ?_, ?_⟩
    · rw [hmap]
      dsimp only
      rw [List.append_assoc]
      rfl
    · rw [hage]
      dsimp only
      simp only [List.length_cons]
      omega
    · intro q hq
      rcases List.mem_cons.mp hq with h | h
      · subst h
        rw [hkeep q.1 (by
          intro hc
          exact hnd.1 hc)]
        dsimp only
        exact mapLookup_storePut_self t.db.store q.1 q.2
      · exact hstore q h
    · intro k hk
      simp only [List.map_cons, List.mem_cons, not_or] at hk
      rw [hkeep k hk.2]
      dsimp only
      exact mapLookup_storePut_other t.db.store p.1 k p.2 hk.1

/-! ## Claim C8 -/

/-- C8 (amended).  Eviction fires when the map reaches its *allocated*
capacity `hashbrownCapacity c`, not the configured `c`: with
`hashbrownCapacity c + 1` puts of distinct keys issued in order with no
intervening gets, the evicted entry is the least recently touched at the
time of the last put — the first key — which alone is no longer resident
while every other put key is; a subsequent `get` on the evicted key
returns the persisted value and re-admits it into the cache. -/
theorem C8_lru_eviction {K V : Type} [LinearOrder K] (db : Db K V) (c : Nat) (hc : 0 < c)
    (k0 : K) (v0 : V) (lrest : List (K × V))
    (hlen : lrest.length = hashbrownCapacity c)
    (hnd : (((k0, v0) :: lrest).map Prod.fst).Nodup)
    (hput : db.putErr = none) (hget : db.getErr = none) :
    mapLookup (LruTable.applyPuts ⟨0, c, db, []⟩ ((k0, v0) :: lrest)).map k0 = none
    ∧ (∀ q ∈ lrest, ∃ ag,
        mapLookup (LruTable.applyPuts ⟨0, c, db, []⟩ ((k0, v0) :: lrest)).map q.1 = some ag
        ∧ ag.value = q.2)
    ∧ ((LruTable.applyPuts ⟨0, c, db, []⟩ ((k0, v0) :: lrest)).get k0).2 = .ok (some v0)
    ∧ (∃ ag,
        mapLookup ((LruTable.applyPuts ⟨0, c, db, []⟩ ((k0, v0) :: lrest)).get k0).1.map k0
          = some ag ∧ ag.value = v0) := by
  rcases List.eq_nil_or_concat lrest with hnil | ⟨linit, plast, hsplit⟩
  · rw [hnil] at hlen
    simp only [List.length_nil] at hlen
    have := hashbrownCapacity_pos c hc
    omega
  subst hsplit
  simp only [List.concat_eq_append] at hlen hnd ⊢
  have hmk : ((k0, v0) :: (linit ++ [plast])).map Prod.fst
      = k0 :: (linit.map Prod.fst ++ [plast.1]) := by simp
  rw [hmk, List.nodup_cons] at hnd
  obtain ⟨hk0mem, hnd2⟩ := hnd
  rw [List.nodup_append] at hnd2
  obtain ⟨hndli, _, hdisj12⟩ := hnd2
  have hpl : plast.1 ∉ linit.map Prod.fst :=
    fun hc2 => hdisj12 hc2 (List.mem_singleton_self _)
  have hk0linit : k0 ∉ linit.map Prod.fst :=
    fun hc2 => hk0mem (List.mem_append.mpr (Or.inl hc2))
  have hk0plast : ¬ k0 = plast.1 := fun hc2 => hk0mem (List.mem_append.mpr (Or.inr (by
    rw [hc2]
    exact List.mem_singleton_self _)))
  have hl1nd : (((k0, v0) :: linit).map Prod.fst).Nodup := by
    simp only [List.map_cons, List.nodup_cons]
    exact ⟨hk0linit, hndli⟩
  have hl1len : ((k0, v0) :: linit).length = hashbrownCapacity c := by
    simp only [List.length_cons]
    simp only [List.length_append, List.length_singleton] at hlen
    omega
  obtain ⟨hmap2, hage2, hcap2, hputE2, hgetE2, hstore2, hkeep2⟩ :=
    applyPuts_fill ((k0, v0) :: linit) (⟨0, c, db, []⟩ : LruTable K V) hl1nd
      (fun p _ => rfl) (by simp [hl1len]) hput
  set t2 : LruTable K V :=
    (⟨0, c, db, []⟩ : LruTable K V).applyPuts ((k0, v0) :: linit) with hT2
  simp only [List.nil_append, agedFrom, Nat.zero_add] at hmap2
  have hsplitputs : (⟨0, c, db, []⟩ : LruTable K V).applyPuts ((k0, v0) :: (linit ++ [plast]))
      = (t2.put plast.1 plast.2).1 := by
    rw [hT2]
    show List.foldl _ _ _ = _
    rw [show (k0, v0) :: (linit ++ [plast]) = ((k0, v0) :: linit) ++ [plast] from rfl]
    rw [List.foldl_append]
    rfl
  rw [hsplitputs]
  have hfreshlast : mapLookup t2.map plast.1 = none := by
    rw [hmap2]
    apply mapLookup_none_of_not_mem_keys
    simp only [List.map_cons, List.mem_cons, not_or]
    refine ⟨fun hc2 => hk0plast hc2.symm, ?_⟩
    rw [agedFrom_keys]
    exact hpl
  rw [LruTable.put_ok_fresh t2 plast.1 plast.2 hputE2 hfreshlast]
  dsimp only
  have hlenM : (agedFrom 1 linit).length = linit.length := by
    have h := congrArg List.length (agedFrom_keys 1 linit)
    simpa using h
  have hlen2 : t2.map.length = hashbrownCapacity t2.capacity := by
    rw [hmap2, hcap2]
    simp only [List.length_cons, hlenM]
    simp only [List.length_append, List.length_singleton] at hlen
    omega
  have hev : lruEvictIfFull t2.capacity t2.map = agedFrom 1 linit := by
    unfold lruEvictIfFull
    rw [if_pos hlen2, hmap2]
    rw [minByAge_head (k0, ⟨1, v0⟩) (agedFrom 1 linit) (fun q hq => by
      have := agedFrom_age_lb 1 linit q hq
      dsimp only
      omega)]
    simp [mapErase]
  have hinsLast : mapInsert (agedFrom 1 linit) plast.1 (⟨t2.age + 1, plast.2⟩ : Aged V)
      = agedFrom 1 linit ++ [(plast.1, ⟨t2.age + 1, plast.2⟩)] :=
    mapInsert_eq_append _ _ _ (mapLookup_none_of_not_mem_keys _ _ (by
      rw [agedFrom_keys]
      exact hpl))
  rw [hev, hinsLast]
  have hmiss : mapLookup
      (agedFrom 1 linit ++ [(plast.1, (⟨t2.age + 1, plast.2⟩ : Aged V))]) k0 = none := by
    rw [mapLookup_append]
    rw [mapLookup_none_of_not_mem_keys (agedFrom 1 linit) k0 (by
      rw [agedFrom_keys]
      exact hk0linit)]
    simp [mapLookup, hk0plast]
  refine ⟨hmiss, ?_, ?_, ?_⟩
  · intro q hq
    rcases List.mem_append.mp hq with hq1 | hq1
    · obtain ⟨ag, hl1, hv1⟩ := agedFrom_lookup 1 linit hndli q hq1
      refine ⟨ag, ?_, hv1⟩
      rw [mapLookup_append, hl1]
    · rw [List.mem_singleton.mp hq1]
      refine ⟨⟨t2.age + 1, plast.2⟩, ?_, rfl⟩
      rw [mapLookup_append]
      rw [mapLookup_none_of_not_mem_keys (agedFrom 1 linit) plast.1 (by
        rw [agedFrom_keys]
        exact hpl)]
      simp [mapLookup]
  · rw [LruTable.get_miss_found _ k0 v0 hmiss (by
        dsimp only
        rw [hgetE2]
        exact hget)
      (by
        dsimp only
        rw [mapLookup_storePut_other t2.db.store plast.1 k0 plast.2 hk0plast]
        exact hstore2 (k0, v0) (List.mem_cons_self _ _))]
  · rw [LruTable.get_miss_found _ k0 v0 hmiss (by
        dsimp only
        rw [hgetE2]
        exact hget)
      (by
        dsimp only
        rw [mapLookup_storePut_other t2.db.store plast.1 k0 plast.2 hk0plast]
        exact hstore2 (k0, v0) (List.mem_cons_self _ _))]
    dsimp only
    exact ⟨_, mapLookup_insert_self _ _ _, rfl⟩

/-- C8 (counterexample).  The claim's own concrete scenario fails on the
code: `LruTable::with_capacity(db, 2)` allocates a map whose
`capacity()` is 3, so after `put(10,1)`, `put(20,2)`, `put(30,3)` the
third put finds `len 2 ≠ capacity() 3`, evicts nothing, and key 10 is
still resident with its value — it is not evicted as claimed. -/
theorem C8_counterexample :
    mapLookup (LruTable.applyPuts (K := Nat) (V := Nat) ⟨0, 2, ⟨[], none, none, none⟩, []⟩
        [(10, 1), (20, 2), (30, 3)]).map 10 = some ⟨1, 1⟩
    ∧ (LruTable.applyPuts (K := Nat) (V := Nat) ⟨0, 2, ⟨[], none, none, none⟩, []⟩
        [(10, 1), (20, 2), (30, 3)]).map.length = 3 := by
  constructor <;> rfl

/-- C8 witness: configured capacity 2 (allocated capacity 3) —
`put(10,1)`, `put(20,2)`, `put(30,3)`, `put(40,4)` in order evicts
key 10, and `get(10)` returns 1 and re-admits it. -/
theorem C8_witness :
    mapLookup (LruTable.applyPuts (K := Nat) (V := Nat) ⟨0, 2, ⟨[], none, none, none⟩, []⟩
        ((10, 1) :: [(20, 2), (30, 3), (40, 4)])).map 10 = none
    ∧ (∀ q ∈ [(20, 2), (30, 3), (40, 4)], ∃ ag,
        mapLookup (LruTable.applyPuts (K := Nat) (V := Nat) ⟨0, 2, ⟨[], none, none, none⟩, []⟩
          ((10, 1) :: [(20, 2), (30, 3), (40, 4)])).map q.1 = some ag ∧ ag.value = q.2)
    ∧ ((LruTable.applyPuts (K := Nat) (V := Nat) ⟨0, 2, ⟨[], none, none, none⟩, []⟩
        ((10, 1) :: [(20, 2), (30, 3), (40, 4)])).get 10).2 = .ok (some 1)
    ∧ (∃ ag, mapLookup ((LruTable.applyPuts (K := Nat) (V := Nat)
          ⟨0, 2, ⟨[], none, none, none⟩, []⟩
          ((10, 1) :: [(20, 2), (30, 3), (40, 4)])).get 10).1.map 10 = some ag
        ∧ ag.value = 1) :=
  C8_lru_eviction ⟨[], none, none, none⟩ 2 (by norm_num) 10 1 [(20, 2), (30, 3), (40, 4)]
    (by decide) (by decide) rfl rfl

/-! ## Claim C4 -/

/-- C4 (amended).  Starting from a freshly constructed cache of
configured capacity `c > 0`, after every sequence of operations the
number of resident entries (`LruTable`) / resident sections
(`SectionLruTable`) never exceeds the map's *allocated* capacity
`hashbrownCapacity c` (3 for `c = 2`), which is what
`ensure_capacity` compares against — not the configured `c`;
`ensure_capacity` at allocated capacity removes exactly one entry, one of
minimal age; and a `put` of a non-resident key at allocated capacity
evicts exactly one minimal-age entry that is never the key being
inserted. -/
theorem C4_capacity {K V S KE AE : Type} [LinearOrder K] [LinearOrder S] [MinValue K]
    [DecidableEq KE] (c : Nat) (hc : 0 < c) (db : Db K V) (db2 : Db (SK S K) V)
    (ops : List (LruOp K V)) (ops2 : List (SecOp S K V)) :
    (LruTable.applyOps ⟨0, c, db, []⟩ ops).map.length ≤ hashbrownCapacity c
    ∧ (SectionLruTable.applyOps ⟨0, c, db2, []⟩ ops2).map.length ≤ hashbrownCapacity c
    ∧ (∀ (cap : Nat) (m : List (KE × Aged AE)), (m.map Prod.fst).Nodup →
        m.length = hashbrownCapacity cap → 0 < hashbrownCapacity cap →
        ∃ p, p ∈ m ∧ (∀ q ∈ m, p.2.age ≤ q.2.age)
          ∧ lruEvictIfFull cap m = mapErase m p.1
          ∧ (mapErase m p.1).length + 1 = m.length)
    ∧ (∀ (t : LruTable K V) (k : K) (v : V), LruWF t →
        t.map.length = hashbrownCapacity t.capacity →
        mapLookup t.map k = none → t.db.putErr = none →
        ∃ p, p ∈ t.map ∧ (∀ q ∈ t.map, p.2.age ≤ q.2.age) ∧ p.1 ≠ k
          ∧ (t.put k v).1.map = mapInsert (mapErase t.map p.1) k ⟨t.age + 1, v⟩
          ∧ (mapErase t.map p.1).length + 1 = t.map.length) := by
  have hevict : ∀ (cap : Nat) (m : List (KE × Aged AE)), (m.map Prod.fst).Nodup →
      m.length = hashbrownCapacity cap → 0 < hashbrownCapacity cap →
      ∃ p, p ∈ m ∧ (∀ q ∈ m, p.2.age ≤ q.2.age)
        ∧ lruEvictIfFull cap m = mapErase m p.1
        ∧ (mapErase m p.1).length + 1 = m.length := by
    intro cap m hnd hfull hcap
    cases m with
    | nil =>
      simp only [List.length_nil] at hfull
      omega
    | cons x xs =>
      obtain ⟨p, hp⟩ := minByAge_isSome x xs
      refine ⟨p, minByAge_mem _ p hp, minByAge_min _ p hp, ?_, ?_⟩
      · unfold lruEvictIfFull
        rw [if_pos hfull, hp]
      · exact mapErase_length_of_lookup_some _ p.1 p.2
          (mapLookup_mem _ p.1 p.2 hnd (by rw [Prod.mk.eta]; exact minByAge_mem _ p hp))
  refine ⟨?_, ?_, hevict, ?_⟩
  · have h := LruTable.applyOps_wf ⟨0, c, db, []⟩ ops ⟨hc, by simp, by simp⟩
    exact le_of_le_of_eq h.1.2.1 (by rw [h.2])
  · have h := SectionLruTable.applyOpsSec_wf ⟨0, c, db2, []⟩ ops2 ⟨hc, by simp, by simp⟩
    exact le_of_le_of_eq h.1.2.1 (by rw [h.2])
  · intro t k v hw hfull hfresh hput
    obtain ⟨hcap, hlen, hnd⟩ := hw
    have hevict2 : ∀ (cap : Nat) (m : List (K × Aged V)), (m.map Prod.fst).Nodup →
        m.length = hashbrownCapacity cap → 0 < hashbrownCapacity cap →
        ∃ p, p ∈ m ∧ (∀ q ∈ m, p.2.age ≤ q.2.age)
          ∧ lruEvictIfFull cap m = mapErase m p.1
          ∧ (mapErase m p.1).length + 1 = m.length := by
      intro cap m hnd' hfull' hcap'
      cases m with
      | nil =>
        simp only [List.length_nil] at hfull'
        omega
      | cons x xs =>
        obtain ⟨p, hp⟩ := minByAge_isSome x xs
        refine ⟨p, minByAge_mem _ p hp, minByAge_min _ p hp, ?_, ?_⟩
        · unfold lruEvictIfFull
          rw [if_pos hfull', hp]
        · exact mapErase_length_of_lookup_some _ p.1 p.2
            (mapLookup_mem _ p.1 p.2 hnd' (by rw [Prod.mk.eta]; exact minByAge_mem _ p hp))
    obtain ⟨p, hmem, hmin, hev, hlen1⟩ := hevict2 t.capacity t.map hnd hfull
      (hashbrownCapacity_pos t.capacity hcap)
    refine ⟨p, hmem, hmin, ?_, ?_, hlen1⟩
    · intro hc2
      have := mapLookup_mem t.map p.1 p.2 hnd (by rw [Prod.mk.eta]; exact hmem)
      rw [hc2, hfresh] at this
      exact absurd this (by simp)
    · rw [LruTable.put_ok_fresh t k v hput hfresh]
      dsimp only
      rw [hev]

/-- C4 (counterexample).  The claim's bound at the configured capacity is
false of the code: with configured capacity 2 the map's `capacity()` is
3, so three distinct puts leave three resident entries — exceeding 2 —
with no eviction. -/
theorem C4_counterexample :
    (LruTable.applyOps (K := Nat) (V := Nat) ⟨0, 2, ⟨[], none, none, none⟩, []⟩
        [.put 10 1, .put 20 2, .put 30 3]).map.length = 3
    ∧ ¬ ((LruTable.applyOps (K := Nat) (V := Nat) ⟨0, 2, ⟨[], none, none, none⟩, []⟩
        [.put 10 1, .put 20 2, .put 30 3]).map.length ≤ 2) := by
  constructor
  · rfl
  · decide

/-- C4 witness: configured capacity 1 (allocated capacity 3) with three
puts and a get on the flat cache, one put and a get on the sectioned
cache, and the eviction properties at a concrete full map. -/
theorem C4_witness :
    (LruTable.applyOps (K := Nat) (V := Nat) ⟨0, 1, ⟨[], none, none, none⟩, []⟩
        [.put 4 10, .put 5 11, .get 4]).map.length ≤ hashbrownCapacity 1
    ∧ (SectionLruTable.applyOps (S := Nat) (K := Nat) (V := Nat)
        ⟨0, 1, ⟨[], none, none, none⟩, []⟩ [.put 2 4 10, .get 3 4]).map.length
      ≤ hashbrownCapacity 1
    ∧ (∀ (cap : Nat) (m : List (Nat × Aged Nat)), (m.map Prod.fst).Nodup →
        m.length = hashbrownCapacity cap → 0 < hashbrownCapacity cap →
        ∃ p, p ∈ m ∧ (∀ q ∈ m, p.2.age ≤ q.2.age)
          ∧ lruEvictIfFull cap m = mapErase m p.1
          ∧ (mapErase m p.1).length + 1 = m.length)
    ∧ (∀ (t : LruTable Nat Nat) (k : Nat) (v : Nat), LruWF t →
        t.map.length = hashbrownCapacity t.capacity →
        mapLookup t.map k = none → t.db.putErr = none →
        ∃ p, p ∈ t.map ∧ (∀ q ∈ t.map, p.2.age ≤ q.2.age) ∧ p.1 ≠ k
          ∧ (t.put k v).1.map = mapInsert (mapErase t.map p.1) k ⟨t.age + 1, v⟩
          ∧ (mapErase t.map p.1).length + 1 = t.map.length) :=
  C4_capacity 1 (by norm_num) ⟨[], none, none, none⟩ ⟨[], none, none, none⟩
    [.put 4 10, .put 5 11, .get 4] [.put 2 4 10, .get 3 4]

/-! ## Claim C7 -/

/-- C7.  Loading a section (as `ensure_section_loaded` does on a miss, on
behalf of `get`, `get_section` and `put`) scans the sorted store forward
from `(section, MinValue)` and stops exclusively at the first key whose
section component differs: the loaded per-section map is exactly the
store's entries whose section component equals `sec` — it contains an
entry `(k, v)` iff the store holds `((sec, k), v)`, and no entry of any
other section. -/
theorem C7_section_scan {S K V : Type} [LinearOrder S] [LinearOrder K] [MinValue K]
    (db : Db (SK S K) V) (sec : S) (hs : storeSorted db.store) :
    loadMap sec db
      = (db.store.filter (fun p => decide (p.1.sec = sec))).map (fun p => (p.1.key, p.2))
    ∧ (∀ k v, (k, v) ∈ loadMap sec db ↔ ((⟨sec, k⟩ : SK S K), v) ∈ db.store)
    ∧ (∀ t : SectionLruTable S K V, t.db = db → mapLookup t.map sec = none →
        mapLookup (t.ensureSectionLoaded sec).map sec
          = some ⟨t.age + 1, loadMap sec db⟩) := by
  have hL : storeSorted (db.store.filter (fun p => decide (p.1.sec = sec))) :=
    List.Pairwise.sublist (List.filter_sublist _) hs
  have hmain : loadMap sec db
      = (db.store.filter (fun p => decide (p.1.sec = sec))).map (fun p => (p.1.key, p.2)) := by
    unfold loadMap Db.iterFromForward
    rw [dropWhile_sorted_filter db.store ⟨sec, MinValue.minVal⟩ hs]
    rw [takeWhile_sec_filter sec ⟨sec, MinValue.minVal⟩ rfl _
      (List.Pairwise.sublist (List.filter_sublist _) hs)
      (fun p hp => by
        have := (List.mem_filter.mp hp).2
        simpa using this)]
    rw [List.filter_filter]
    have hff : db.store.filter
          (fun p => decide (p.1.sec = sec)
            && decide (¬ p.1 < (⟨sec, MinValue.minVal⟩ : SK S K)))
        = db.store.filter (fun p => decide (p.1.sec = sec)) := by
      apply List.filter_congr
      intro p hp
      by_cases hsec : p.1.sec = sec
      · have hnlt : ¬ p.1 < (⟨sec, MinValue.minVal⟩ : SK S K) := by
          rw [SK.lt_iff]
          push_neg
          refine ⟨by rw [hsec], fun _ => MinValue.minVal_le p.1.key⟩
        simp [hsec, hnlt]
      · simp [hsec]
    rw [hff]
    have hkeys : (((db.store.filter (fun p => decide (p.1.sec = sec))).map
        (fun p => (p.1.key, p.2))).map Prod.fst).Nodup := by
      rw [List.map_map]
      have hpair : (db.store.filter (fun p => decide (p.1.sec = sec))).Pairwise
          (fun a b => a.1.key < b.1.key) := by
        apply List.Pairwise.imp_of_mem ?_ hL
        intro a b ha hb hab
        have hasec : a.1.sec = sec := by
          have := (List.mem_filter.mp ha).2
          simpa using this
        have hbsec : b.1.sec = sec := by
          have := (List.mem_filter.mp hb).2
          simpa using this
        rw [SK.lt_iff] at hab
        rcases hab with h | h
        · rw [hasec, hbsec] at h
          exact absurd h (lt_irrefl sec)
        · exact h.2
      have hkpair : ((db.store.filter (fun p => decide (p.1.sec = sec))).map
          (fun p => p.1.key)).Pairwise (· < ·) := by
        rw [List.pairwise_map]
        exact hpair
      exact List.Pairwise.imp (fun h => ne_of_lt h) hkpair
    rw [← List.foldl_map (fun p : SK S K × V => (p.1.key, p.2))
      (fun m q => mapInsert m q.1 q.2) _ _]
    rw [foldl_mapInsert_eq_append _ [] hkeys (fun p _ => rfl)]
    simp
  refine ⟨hmain, ?_, ?_⟩
  · intro k v
    rw [hmain]
    constructor
    · intro hmem
      obtain ⟨⟨⟨ps, pk⟩, pv⟩, hp, heq⟩ := List.mem_map.mp hmem
      obtain ⟨hpmem, hpsec⟩ := List.mem_filter.mp hp
      simp only [decide_eq_true_eq] at hpsec
      simp only [Prod.mk.injEq] at heq
      rw [← hpsec, ← heq.1, ← heq.2]
      exact hpmem
    · intro hmem
      refine List.mem_map.mpr ⟨(⟨sec, k⟩, v), List.mem_filter.mpr ⟨hmem, by simp⟩, rfl⟩
  · intro t hdb hnone
    rw [SectionLruTable.ensureSectionLoaded_miss t sec hnone, hdb]
    simp [mapLookup_insert_self]

/-- C7 witness: the spec's concrete scenario with sections and keys as
numbers — entries `(1,10) ↦ 1, (1,20) ↦ 2, (2,30) ↦ 3` in ascending key
order; loading section 1 yields exactly its two entries. -/
theorem C7_witness :
    loadMap (V := Nat) 1 ⟨[(⟨1, 10⟩, 1), (⟨1, 20⟩, 2), (⟨2, 30⟩, 3)], none, none, none⟩
      = [(10, 1), (20, 2)]
    ∧ ((10, 1) ∈ loadMap (V := Nat) 1
        ⟨[(⟨1, 10⟩, 1), (⟨1, 20⟩, 2), (⟨2, 30⟩, 3)], none, none, none⟩
      ↔ ((⟨1, 10⟩ : SK Nat Nat), 1)
          ∈ [((⟨1, 10⟩ : SK Nat Nat), 1), (⟨1, 20⟩, 2), (⟨2, 30⟩, 3)]) := by
  have h := C7_section_scan (V := Nat)
    ⟨[(⟨1, 10⟩, 1), (⟨1, 20⟩, 2), (⟨2, 30⟩, 3)], none, none, none⟩ 1
    (by
      rw [storeSorted]
      refine List.Pairwise.cons ?_ (List.Pairwise.cons ?_ (List.pairwise_singleton _ _))
      · intro b hb
        rcases List.mem_cons.mp hb with h1 | h1
        · rw [h1, SK.lt_iff]
          right
          exact ⟨rfl, by norm_num⟩
        · rw [List.mem_singleton.mp h1, SK.lt_iff]
          left
          norm_num
      · intro b hb
        rw [List.mem_singleton.mp hb, SK.lt_iff]
        left
        norm_num)
  refine ⟨?_, h.2.1 10 1⟩
  rw [h.1]
  rfl

/-! ## Claim C9 -/

/-- C9 (counterexample).  The claim says `SectionLruTable::delete` always
writes the deletion through to the `Table`, including when the section is
resident but the key absent from its in-memory map.  In that very case the
code skips the store call: with section 0 resident as an empty map while
the store still holds `(0,3) ↦ 7`, the delete returns `Ok` and the store
still contains the composite key. -/
theorem C9_counterexample :
    mapLookup (SectionLruTable.delete (S := Nat) (K := Nat) (V := Nat)
        ⟨5, 2, ⟨[(⟨0, 3⟩, 7)], none, none, none⟩, [(0, ⟨5, []⟩)]⟩ 0 3).1.db.store ⟨0, 3⟩
      = some 7
    ∧ (SectionLruTable.delete (S := Nat) (K := Nat) (V := Nat)
        ⟨5, 2, ⟨[(⟨0, 3⟩, 7)], none, none, none⟩, [(0, ⟨5, []⟩)]⟩ 0 3).2 = .ok () := by
  constructor <;> rfl

/-- C9 (amended).  `SectionLruTable::delete` writes the deletion through
to the `Table` when the section is not resident, or when it is resident
and the key is present in its in-memory map (then also removing it from
that map); afterwards the store does not contain the composite key.  But
when the section is resident and the key is absent from its map, no store
call is made and the table is returned unchanged. -/
theorem C9_amended {S K V : Type} [LinearOrder S] [LinearOrder K]
    (t : SectionLruTable S K V) (sec : S) (k : K) (hdel : t.db.delErr = none) :
    (∀ aged, mapLookup t.map sec = some aged → (mapLookup aged.value k).isSome = true →
      mapLookup (SectionLruTable.delete t sec k).1.db.store ⟨sec, k⟩ = none
      ∧ mapLookup (SectionLruTable.delete t sec k).1.map sec
          = some ⟨aged.age, mapErase aged.value k⟩)
    ∧ (mapLookup t.map sec = none →
      mapLookup (SectionLruTable.delete t sec k).1.db.store ⟨sec, k⟩ = none
      ∧ (SectionLruTable.delete t sec k).1.map = t.map)
    ∧ (∀ aged, mapLookup t.map sec = some aged → mapLookup aged.value k = none →
      (SectionLruTable.delete t sec k).1 = t
      ∧ (SectionLruTable.delete t sec k).2 = .ok ()) := by
  obtain ⟨ag, cap, ⟨st, pe, ge, de⟩, mp⟩ := t
  dsimp only at hdel ⊢
  subst hdel
  refine ⟨?_, ?_, ?_⟩
  · intro aged hsec hkey
    simp [SectionLruTable.delete, Db.delete, hsec, hkey, mapLookup_storeDelete_self,
      mapLookup_insert_self]
  · intro hsec
    simp [SectionLruTable.delete, Db.delete, hsec, mapLookup_storeDelete_self]
  · intro aged hsec hkey
    simp [SectionLruTable.delete, hsec, hkey]

/-- C9 witness: the amended theorem at the counterexample state (section
0 resident, key 3 absent from its map, store holding `(0,3) ↦ 7`). -/
theorem C9_witness :
    (SectionLruTable.delete (S := Nat) (K := Nat) (V := Nat)
        ⟨5, 2, ⟨[(⟨0, 3⟩, 7)], none, none, none⟩, [(0, ⟨5, []⟩)]⟩ 0 3).1
      = ⟨5, 2, ⟨[(⟨0, 3⟩, 7)], none, none, none⟩, [(0, ⟨5, []⟩)]⟩
    ∧ (SectionLruTable.delete (S := Nat) (K := Nat) (V := Nat)
        ⟨5, 2, ⟨[(⟨0, 3⟩, 7)], none, none, none⟩, [(0, ⟨5, []⟩)]⟩ 0 3).2 = .ok () :=
  (C9_amended ⟨5, 2, ⟨[(⟨0, 3⟩, 7)], none, none, none⟩, [(0, ⟨5, []⟩)]⟩ 0 3
    rfl).2.2 ⟨5, []⟩ rfl rfl

/-! ## Claim C10 -/

/-- C10.  Constructing an `LruTable` or `SectionLruTable` with capacity 0
panics (`assert!(capacity > 0)`, modelled as `none`); for any capacity of
at least 1 construction succeeds with an empty map and age counter 0. -/
theorem C10_constructor {K V S : Type} (db : Db K V) (db2 : Db (SK S K) V) :
    LruTable.withCapacity db 0 = none
    ∧ SectionLruTable.withCapacity db2 0 = none
    ∧ (∀ c, 0 < c →
        LruTable.withCapacity db c = some ⟨0, c, db, []⟩
        ∧ SectionLruTable.withCapacity db2 c = some ⟨0, c, db2, []⟩) := by
  refine ⟨rfl, rfl, fun c hc => ⟨?_, ?_⟩⟩
  · unfold LruTable.withCapacity
    rw [if_pos hc]
  · unfold SectionLruTable.withCapacity
    rw [if_pos hc]

/-- C10 witness: the constructors at capacity 0 and capacity 1 over
concrete empty stores. -/
theorem C10_witness :
    LruTable.withCapacity (K := Nat) (V := Nat) ⟨[], none, none, none⟩ 0 = none
    ∧ SectionLruTable.withCapacity (S := Nat) (K := Nat) (V := Nat)
        ⟨[], none, none, none⟩ 0 = none
    ∧ (LruTable.withCapacity (K := Nat) (V := Nat) ⟨[], none, none, none⟩ 1
        = some ⟨0, 1, ⟨[], none, none, none⟩, []⟩
      ∧ SectionLruTable.withCapacity (S := Nat) (K := Nat) (V := Nat)
          ⟨[], none, none, none⟩ 1
        = some ⟨0, 1, ⟨[], none, none, none⟩, []⟩) := by
  have h := C10_constructor (K := Nat) (V := Nat) (S := Nat)
    ⟨[], none, none, none⟩ ⟨[], none, none, none⟩
  exact ⟨h.1, h.2.1, h.2.2 1 (by norm_num)⟩

end RocksTables
